import Mathlib

/-!
Verification of the core algorithms of the `thomas` repository:
the semantic chunking engine of `src/thomas/full_rag.py` and the
RSS ingestion deduplicator of `src/thomas/finma.py`.

Text is modelled as `List Char` (named `Str` below); Python strings
are translated character-for-character.  Regular-expression based
transformations from the source are embedded through a small
backtracking matcher for sequences of quantified character classes,
which covers every pattern the source uses.
-/

/-- Python strings are modelled as lists of characters. -/
abbrev Str := List Char

/-- The characters Python's `str.strip()` / `\s` treat as whitespace
(ASCII whitespace plus the Unicode space separators). -/
def pySpace (c : Char) : Bool :=
  c = ' ' || c = '\t' || c = '\n' || c = '\r' || c = '\x0b' || c = '\x0c' ||
  c = '\x1c' || c = '\x1d' || c = '\x1e' || c = '\x1f' || c = '\x85' ||
  c = '\xa0' || c = '\u1680' || ('\u2000' ≤ c && c ≤ '\u200a') ||
  c = '\u2028' || c = '\u2029' || c = '\u202f' || c = '\u205f' || c = '\u3000'

/-- Python `str.strip()`: drop leading and trailing whitespace. -/
def pyStrip (s : Str) : Str :=
  ((s.dropWhile pySpace).reverse.dropWhile pySpace).reverse

/-- Horizontal whitespace, the `[ \t]` character class of the source. -/
def isHT (c : Char) : Bool := c = ' ' || c = '\t'

/-- Word characters for the `\b` boundary assertion (`[A-Za-z0-9_]`). -/
def isWordChar (c : Char) : Bool := c.isAlphanum || c = '_'

/-- `_estimate_tokens` of full_rag.py: `max(1, (len(text) + 3) // 4)`. -/
def estimateTokens (s : Str) : Nat :=
  Nat.max 1 ((s.length + 3) / 4)

/-- Python `" ".join(parts)` (and, generally, `sep.join parts`). -/
def joinWith (sep : Str) : List Str → Str
  | [] => []
  | [p] => p
  | p :: ps => p ++ sep ++ joinWith sep ps

/-- Python `s.split()`: split on whitespace runs, discarding empties. -/
def pySplit (s : Str) : List Str :=
  let rec go : Str → Str → List Str
    | [], acc => if acc = [] then [] else [acc.reverse]
    | c :: rest, acc =>
        if pySpace c then
          if acc = [] then go rest [] else acc.reverse :: go rest []
        else go rest (c :: acc)
  go s []

/-! ## A matcher for sequences of quantified character classes

Every regular expression substituted by the source (apart from the
word-boundary header patterns, handled separately) is a plain sequence
of character classes, each with a repetition range.  `seqMatch` performs
the standard leftmost/greedy backtracking search of `re.sub`. -/

/-- One pattern item: a character class with repetition bounds
(`none` as upper bound means unbounded). -/
structure PItem where
  cls : Char → Bool
  lo : Nat
  hi : Option Nat

/-- Length of the maximal prefix of `s` all of whose characters satisfy `p`. -/
def runLen (p : Char → Bool) : Str → Nat
  | [] => 0
  | c :: rest => if p c then runLen p rest + 1 else 0

/-- Greedy backtracking over the count of the first item: try `f (lo + k)`,
`f (lo + k - 1)`, ..., `f lo`, returning the first success. -/
def tryDown (f : Nat → Option Nat) (lo : Nat) : Nat → Option Nat
  | 0 => f lo
  | k + 1 =>
      match f (lo + k + 1) with
      | some r => some r
      | none => tryDown f lo k

/-- Leftmost/greedy match of a class-sequence pattern against a prefix of
`s`; returns the matched length. -/
def seqMatch : List PItem → Str → Option Nat
  | [], _ => some 0
  | it :: rest, s =>
      if runLen it.cls s < it.lo then none
      else
        let cap := match it.hi with
          | some h => Nat.min (runLen it.cls s) (h - it.lo)
          | none => runLen it.cls s - it.lo
        tryDown (fun n => (seqMatch rest (s.drop n)).map (fun m => n + m)) it.lo cap

/-- `re.sub(pattern, repl, text)` for a class-sequence pattern: scan left to
right, replacing each leftmost non-overlapping match (the source's patterns
never match the empty string; a zero-width match is not consumed). -/
def reSub (pat : List PItem) (repl : Str → Str) : Nat → Str → Str
  | 0, s => s
  | _ + 1, [] => []
  | fuel + 1, c :: rest =>
      match seqMatch pat (c :: rest) with
      | some (n + 1) =>
          repl ((c :: rest).take (n + 1)) ++ reSub pat repl fuel ((c :: rest).drop (n + 1))
      | _ => c :: reSub pat repl fuel rest

/-- Entry point computing the fuel (one unit per character suffices,
since every replacement consumes at least one character). -/
def reSubAll (pat : List PItem) (repl : Str → Str) (s : Str) : Str :=
  reSub pat repl s.length s

/-- A literal character as a pattern item. -/
def litP (c : Char) : PItem := ⟨fun x => x = c, 1, some 1⟩

/-- A case-insensitive literal character. -/
def litIP (c : Char) : PItem := ⟨fun x => x.toLower = c.toLower, 1, some 1⟩

/-- `\s*` as a pattern item. -/
def wsStar : PItem := ⟨pySpace, 0, none⟩

/-- Python `str.replace(old, new)` via the matcher (left-to-right,
non-overlapping), for a non-empty `old`. -/
def pyReplace (old new s : Str) : Str :=
  reSubAll (old.map litP) (fun _ => new) s

/-! ## The semantic chunking windower (`_semantic_chunks_from_sentences`) -/

/-- The mutable state of `_semantic_chunks_from_sentences`: emitted chunks,
the current sentence buffer, and its running token estimate. -/
structure ChunkState where
  chunks : List Str
  current : List Str
  tok : Nat
deriving DecidableEq, Repr

/-- Sum of `estimate_tokens(s) + 1` over a buffer. -/
def sumTok (l : List Str) : Nat :=
  (l.map (fun s => estimateTokens s + 1)).sum

/-- The overlap-carry loop of `flush_current`: walk the reversed buffer,
appending each sentence and stopping once the accumulated estimate
reaches `overlap_tokens`. -/
def overlapCarry (ov : Nat) : List Str → Nat → List Str
  | [], _ => []
  | s :: rest, tok =>
      let tok2 := tok + estimateTokens s + 1
      if ov ≤ tok2 then [s] else s :: overlapCarry ov rest tok2

/-- `flush_current` of full_rag.py: emit the joined, stripped buffer as a
chunk and seed the next buffer with the overlap carry. -/
def flushCurrent (ov : Nat) (st : ChunkState) : ChunkState :=
  if st.current = [] then st
  else
    let chunkText := pyStrip (joinWith [' '] st.current)
    let carry := (overlapCarry ov st.current.reverse 0).reverse
    { chunks := st.chunks ++ [chunkText], current := carry, tok := sumTok carry }

/-- The advance step of the word-subdivision loop:
`max(1, approx_words_per_chunk - max(5, overlap_tokens))`. -/
def subdivisionStep (approx ov : Nat) : Nat :=
  Nat.max 1 (approx - Nat.max 5 ov)

/-- The `while i < len(words)` loop of the oversized-sentence branch,
with one unit of fuel per word (sufficient: the advance step is ≥ 1). -/
def oversizedGo (target maxT ov approx stp : Nat) (words : List Str) :
    Nat → Nat → ChunkState → ChunkState
  | 0, _, st => st
  | fuel + 1, i, st =>
      if i < words.length then
        let piece := joinWith [' '] ((words.drop i).take approx)
        let st1 := if maxT < st.tok + estimateTokens piece then flushCurrent ov st else st
        let st2 : ChunkState :=
          { st1 with current := st1.current ++ [piece],
                     tok := st1.tok + estimateTokens piece + 1 }
        let st3 := if target ≤ st2.tok then flushCurrent ov st2 else st2
        oversizedGo target maxT ov approx stp words fuel (i + stp) st3
      else st

/-- The dead inner guard's `for i in range(0, len(words), max(1, max-ov))`
loop (kept for faithfulness; unreachable since the branch requires
`estimate_tokens(s) > max_tokens` after the top branch already handled
`estimate_tokens(s) >= max_tokens`). -/
def rangeGo (target ov stp : Nat) (words : List Str) :
    Nat → Nat → ChunkState → ChunkState
  | 0, _, st => st
  | fuel + 1, i, st =>
      if i < words.length then
        let piece := joinWith [' '] ((words.drop i).take stp)
        let st1 : ChunkState :=
          { st with current := st.current ++ [piece],
                    tok := st.tok + estimateTokens piece + 1 }
        let st2 := if target ≤ st1.tok then flushCurrent ov st1 else st1
        rangeGo target ov stp words fuel (i + stp) st2
      else st

/-- The body of the `for s in sentences` loop of
`_semantic_chunks_from_sentences`. -/
def stepSentence (target maxT ov : Nat) (st : ChunkState) (s : Str) : ChunkState :=
  let sTok := estimateTokens s
  if maxT ≤ sTok then
    let words := pySplit s
    let approx0 := maxT * 4 / 5
    let approx := if approx0 = 0 then words.length else approx0
    oversizedGo target maxT ov approx (subdivisionStep approx ov) words
      words.length 0 st
  else if st.tok + sTok ≤ maxT then
    let st1 : ChunkState :=
      { st with current := st.current ++ [s], tok := st.tok + sTok + 1 }
    if target ≤ st1.tok then flushCurrent ov st1 else st1
  else
    let st1 := flushCurrent ov st
    if maxT < estimateTokens s then
      rangeGo target ov (Nat.max 1 (maxT - ov)) (pySplit s)
        (pySplit s).length 0 st1
    else
      let st2 : ChunkState :=
        { st1 with current := st1.current ++ [s], tok := st1.tok + sTok + 1 }
      if target ≤ st2.tok then flushCurrent ov st2 else st2

/-- `_semantic_chunks_from_sentences` of full_rag.py. -/
def semanticChunksFromSentences (sentences : List Str)
    (target maxT ov : Nat) : List Str :=
  let final := sentences.foldl (stepSentence target maxT ov)
    { chunks := [], current := [], tok := 0 }
  final.chunks ++
    (if final.current = [] then [] else [pyStrip (joinWith [' '] final.current)])

/-! ## Text normalization (`_clean_extracted_text`, keep_punctuation=True) -/

/-- `[^ \t<>)]`, the tail class of the URL/DOI repair patterns. -/
def notStop (c : Char) : Bool :=
  !(c = ' ' || c = '\t' || c = '<' || c = '>' || c = ')')

/-- `-\s*\n\s*`: a hyphen followed by a whitespace run containing a newline. -/
def hyphenNlPat : List PItem :=
  [litP '-', wsStar, litP '\n', wsStar]

/-- `[ \t]*\n[ \t]*`. -/
def nlPat : List PItem :=
  [⟨isHT, 0, none⟩, litP '\n', ⟨isHT, 0, none⟩]

/-- `(h\s*t\s*t\s*p\s*s?\s*:\s*/\s*/[^ \t<>)]+)`, case-insensitive. -/
def httpPat : List PItem :=
  [litIP 'h', wsStar, litIP 't', wsStar, litIP 't', wsStar, litIP 'p', wsStar,
   ⟨fun c => c.toLower = 's', 0, some 1⟩, wsStar, litP ':', wsStar,
   litP '/', wsStar, litP '/', ⟨notStop, 1, none⟩]

/-- `(d\s*o\s*i\s*[:.]?\s*10\.[^ \t<>)]+)`, case-insensitive. -/
def doiPat : List PItem :=
  [litIP 'd', wsStar, litIP 'o', wsStar, litIP 'i', wsStar,
   ⟨fun c => c = ':' || c = '.', 0, some 1⟩, wsStar,
   litP '1', litP '0', litP '.', ⟨notStop, 1, none⟩]

/-- `(10\.\d{4,}/[^ \t<>)]+)`. -/
def barePat : List PItem :=
  [litP '1', litP '0', litP '.', ⟨fun c => '0' ≤ c && c ≤ '9', 4, none⟩,
   litP '/', ⟨notStop, 1, none⟩]

/-- `([A-Za-z0-9-]+\s*\.\s*[A-Za-z0-9.-]+\s*/[^ \t<>)]*)`. -/
def domainPat : List PItem :=
  [⟨fun c => c.isAlphanum || c = '-', 1, none⟩, wsStar, litP '.', wsStar,
   ⟨fun c => c.isAlphanum || c = '.' || c = '-', 1, none⟩, wsStar,
   litP '/', ⟨notStop, 0, none⟩]

/-- `_collapse_spaces`: remove every whitespace character of the match. -/
def collapseSpaces (m : Str) : Str := m.filter (fun c => !pySpace c)

/-- Stage of `_clean_extracted_text` just before the final whitespace
collapse: line endings unified, soft/zero-width characters stripped,
wrap hyphenation removed, paragraph breaks marked, newlines spaced,
URL/DOI-shaped spans repaired. -/
def cleanStage (text : Str) : Str :=
  let t1 := pyReplace ['\r', '\n'] ['\n'] text
  let t2 := pyReplace ['\r'] ['\n'] t1
  let t3 := pyReplace ['\xad'] [] t2
  let t4 := pyReplace ['\u200b'] [] t3
  let t5 := pyReplace ['\u200c'] [] t4
  let t6 := pyReplace ['\u200d'] [] t5
  let t7 := reSubAll hyphenNlPat (fun _ => []) t6
  let t8 := pyReplace ['\n', '\n'] ['<', 'P', '>'] t7
  let t9 := reSubAll nlPat (fun _ => [' ']) t8
  let t10 := reSubAll httpPat collapseSpaces t9
  let t11 := reSubAll doiPat collapseSpaces t10
  let t12 := reSubAll barePat collapseSpaces t11
  reSubAll domainPat collapseSpaces t12

/-- Stage after `re.sub(r"[ \t]+", " ", t).strip()`. -/
def cleanCollapsed (text : Str) : Str :=
  pyStrip (reSubAll [⟨isHT, 1, none⟩] (fun _ => [' ']) (cleanStage text))

/-- `_clean_extracted_text(text, keep_punctuation=True)` of full_rag.py
(the only form the pipeline invokes). -/
def cleanExtractedText (text : Str) : Str :=
  pyReplace ['<', 'P', '>'] [' '] (cleanCollapsed text)

/-! ## Sentence segmentation (`_split_into_sentences`) -/

/-- The fixed section-header vocabulary, in the source's order. -/
def sectionWords : List Str :=
  ["ABSTRACT".data, "Abstract".data, "INTRODUCTION".data, "Introduction".data,
   "BACKGROUND".data, "Background".data, "METHODS".data, "Methods".data,
   "MATERIALS".data, "Materials".data, "RESULTS".data, "Results".data,
   "DISCUSSION".data, "Discussion".data, "CONCLUSION".data, "Conclusions".data,
   "Conclusion".data, "ACKNOWLEDGEMENTS".data, "Acknowledgements".data,
   "REFERENCES".data, "References".data]

/-- Length of the `\s*:?\s*` span following a matched header word. -/
def trailLen (s : Str) : Nat :=
  let k1 := runLen pySpace s
  if (s.drop k1).head? = some ':' then
    k1 + 1 + runLen pySpace (s.drop k1).tail
  else k1

/-- One step scan of `re.sub(rf"\b{w}\b\s*:?\s*", f"{w}. ", text)`:
`prevWord` tells whether the character before the scan position is a word
character (for the `\b` assertion). -/
def substHeaderAux (w : Str) : Nat → Bool → Str → Str
  | 0, _, s => s
  | _ + 1, _, [] => []
  | fuel + 1, prevWord, c :: rest =>
      let l := c :: rest
      if !prevWord && w.isPrefixOf l &&
          (match l.drop w.length with
           | [] => true
           | d :: _ => !isWordChar d) then
        let after := l.drop w.length
        let k := trailLen after
        let consumed := w.length + k
        let nextPrev := if k = 0 then true else false
        w ++ ['.', ' '] ++ substHeaderAux w fuel nextPrev (l.drop consumed)
      else
        c :: substHeaderAux w fuel (isWordChar c) rest

/-- `re.sub(rf"\b{w}\b\s*:?\s*", f"{w}. ", text)` for one header word. -/
def substHeader (w : Str) (text : Str) : Str :=
  substHeaderAux w text.length false text

/-- The header-hint loop of `_split_into_sentences`: apply the boundary
substitution for every section word in order. -/
def headerHint (text : Str) : Str :=
  sectionWords.foldl (fun t w => substHeader w t) text

/-- Sentence-ender split positions: `(?<=[.!?])\s+(?=[A-Z0-9\(])`.
Returns the parts of `re.split` on the normalized text. -/
def splitEnders : Nat → Bool → Str → List Str
  | 0, _, s => [s]
  | _ + 1, _, [] => [[]]
  | fuel + 1, prevEnder, c :: rest =>
      let l := c :: rest
      let k := runLen pySpace l
      if prevEnder && 0 < k &&
          (match l.drop k with
           | d :: _ => ('A' ≤ d && d ≤ 'Z') || ('0' ≤ d && d ≤ '9') || d = '('
           | [] => false) then
        [] :: splitEnders fuel false (l.drop k)
      else
        match splitEnders fuel (c = '.' || c = '!' || c = '?') rest with
        | p :: ps => (c :: p) :: ps
        | [] => [[c]]

/-- `_split_into_sentences` of full_rag.py. -/
def splitIntoSentences (text : Str) : List Str :=
  let hinted := headerHint text
  let norm := pyStrip (reSubAll [⟨pySpace, 1, none⟩] (fun _ => [' ']) hinted)
  let parts := splitEnders norm.length false norm
  (parts.map pyStrip).filter (fun p => p ≠ [])

/-! ## The ingestion deduplicator (`finma.py`)

The record store is modelled as its text content (`Str`), an absent file
as `none`.  Python's `json` module is embedded in two layers.  Acceptance
(does `json.loads` succeed or raise?) is decided by `jsonAccepts`, a
recognizer of the full grammar the module implements: numbers with
fraction and exponent parts, the nonstandard constants `NaN`, `Infinity`
and `-Infinity`, and string escapes including lone surrogates.  Value
decoding (`jsonValue`) covers the fragment with integer numerics and
paired-surrogate escapes; a document the source parses outside that
fragment (for instance an object containing a float) is accepted by the
recognizer but not valued by the model, so the key the source then
derives is not modelled.  Every theorem below that touches the decoder
therefore hypothesises rejection (`jsonAccepts _ = false`), where model
and source agree by construction. -/

/-- `RssItem` of finma.py: four optional string fields. -/
structure RssItem where
  title : Option Str
  link : Option Str
  pubDate : Option Str
  description : Option Str
deriving DecidableEq, Repr

/-- Python JSON values (with integer numerics). -/
inductive Json where
  | null : Json
  | bool (b : Bool) : Json
  | num (n : Int) : Json
  | str (s : Str) : Json
  | arr (xs : List Json) : Json
  | obj (fields : List (Str × Json)) : Json

/-- JSON inter-token whitespace. -/
def jsonWs (c : Char) : Bool :=
  c = ' ' || c = '\t' || c = '\n' || c = '\r'

/-- Hex digit value (code points 0-9, a-f, A-F). -/
def hexVal (c : Char) : Option Nat :=
  let v := c.toNat
  if 48 ≤ v && v ≤ 57 then some (v - 48)
  else if 97 ≤ v && v ≤ 102 then some (v - 87)
  else if 65 ≤ v && v ≤ 70 then some (v - 55)
  else none

/-- Parse `\uXXXX` digits (the four characters after `\u`). -/
def hex4 : Str → Option (Nat × Str)
  | a :: b :: c :: d :: rest =>
      match hexVal a, hexVal b, hexVal c, hexVal d with
      | some x, some y, some z, some w => some (((x * 16 + y) * 16 + z) * 16 + w, rest)
      | _, _, _, _ => none
  | _ => none

/-- Decode a JSON string body (after the opening quote) up to and past the
closing quote.  Escaped surrogate pairs are combined; lone surrogates are
rejected. -/
def jsonStrBody : Nat → Str → Option (Str × Str)
  | 0, _ => none
  | _ + 1, [] => none
  | fuel + 1, c :: rest =>
      if c = '"' then some ([], rest)
      else if c = '\\' then
        match rest with
        | [] => none
        | e :: rest2 =>
            let push (ch : Char) (rem : Str) : Option (Str × Str) :=
              match jsonStrBody fuel rem with
              | some (s, r) => some (ch :: s, r)
              | none => none
            if e = '"' then push '"' rest2
            else if e = '\\' then push '\\' rest2
            else if e = '/' then push '/' rest2
            else if e = 'b' then push '\x08' rest2
            else if e = 'f' then push '\x0c' rest2
            else if e = 'n' then push '\n' rest2
            else if e = 'r' then push '\r' rest2
            else if e = 't' then push '\t' rest2
            else if e = 'u' then
              match hex4 rest2 with
              | none => none
              | some (n, rest3) =>
                  if 0xd800 ≤ n && n ≤ 0xdbff then
                    match rest3 with
                    | '\\' :: 'u' :: rest4 =>
                        match hex4 rest4 with
                        | some (m, rest5) =>
                            if 0xdc00 ≤ m && m ≤ 0xdfff then
                              push (Char.ofNat (0x10000 + (n - 0xd800) * 0x400 + (m - 0xdc00))) rest5
                            else none
                        | none => none
                    | _ => none
                  else if 0xdc00 ≤ n && n ≤ 0xdfff then none
                  else push (Char.ofNat n) rest3
            else none
      else if c.toNat < 0x20 then none
      else
        match jsonStrBody fuel rest with
        | some (s, r) => some (c :: s, r)
        | none => none

/-- Decode an optionally signed JSON integer (rejecting fractions,
exponents and leading zeros). -/
def jsonNum (s : Str) : Option (Int × Str) :=
  let core : Str → Option (Nat × Str) := fun t =>
    match t with
    | '0' :: rest => some (0, rest)
    | c :: _ =>
        if '1' ≤ c && c ≤ '9' then
          let ds := t.takeWhile (fun d => '0' ≤ d && d ≤ '9')
          some (ds.foldl (fun acc d => acc * 10 + (d.toNat - '0'.toNat)) 0,
                t.dropWhile (fun d => '0' ≤ d && d ≤ '9'))
        else none
    | [] => none
  let signed : Option (Int × Str) :=
    match s with
    | '-' :: rest =>
        match core rest with
        | some (n, r) => some (-(n : Int), r)
        | none => none
    | _ =>
        match core s with
        | some (n, r) => some ((n : Int), r)
        | none => none
  match signed with
  | some (v, r) =>
      match r with
      | c :: _ => if c = '.' || c = 'e' || c = 'E' then none else some (v, r)
      | [] => some (v, r)
  | none => none

/-- Decode one JSON value from the front of the input. -/
def jsonValue : Nat → Str → Option (Json × Str)
  | 0, _ => none
  | fuel + 1, s =>
      let s := s.dropWhile jsonWs
      match s with
      | [] => none
      | c :: rest =>
          if c = '"' then
            match jsonStrBody s.length rest with
            | some (body, r) => some (.str body, r)
            | none => none
          else if c = '[' then
            let rest1 := rest.dropWhile jsonWs
            match rest1 with
            | ']' :: r => some (.arr [], r)
            | _ => jsonArrItems fuel rest []
          else if c = '\x7b' then
            let rest1 := rest.dropWhile jsonWs
            match rest1 with
            | '\x7d' :: r => some (.obj [], r)
            | _ => jsonObjItems fuel rest []
          else if c = 't' then
            match s with
            | 't' :: 'r' :: 'u' :: 'e' :: r => some (.bool true, r)
            | _ => none
          else if c = 'f' then
            match s with
            | 'f' :: 'a' :: 'l' :: 's' :: 'e' :: r => some (.bool false, r)
            | _ => none
          else if c = 'n' then
            match s with
            | 'n' :: 'u' :: 'l' :: 'l' :: r => some (.null, r)
            | _ => none
          else
            match jsonNum s with
            | some (v, r) => some (.num v, r)
            | none => none
where
  /-- Comma-separated array items (after `[`, at least one item). -/
  jsonArrItems : Nat → Str → List Json → Option (Json × Str)
    | 0, _, _ => none
    | fuel + 1, s, acc =>
        match jsonValue fuel s with
        | none => none
        | some (v, r) =>
            let r := r.dropWhile jsonWs
            match r with
            | ',' :: r2 => jsonArrItems fuel r2 (acc ++ [v])
            | ']' :: r2 => some (.arr (acc ++ [v]), r2)
            | _ => none
  /-- Comma-separated object members (after the brace, at least one). -/
  jsonObjItems : Nat → Str → List (Str × Json) → Option (Json × Str)
    | 0, _, _ => none
    | fuel + 1, s, acc =>
        let s := s.dropWhile jsonWs
        match s with
        | '"' :: rest =>
            match jsonStrBody s.length rest with
            | none => none
            | some (k, r) =>
                let r := r.dropWhile jsonWs
                match r with
                | ':' :: r2 =>
                    match jsonValue fuel r2 with
                    | none => none
                    | some (v, r3) =>
                        let r3 := r3.dropWhile jsonWs
                        match r3 with
                        | ',' :: r4 => jsonObjItems fuel r4 (acc ++ [(k, v)])
                        | '\x7d' :: r4 => some (.obj (acc ++ [(k, v)]), r4)
                        | _ => none
                | _ => none
        | _ => none

/-- One-or-more decimal digits; returns the remainder. -/
def jsonDigits (t : Str) : Option Str :=
  match t with
  | c :: _ =>
      if '0' ≤ c && c ≤ '9' then
        some (t.dropWhile (fun d => '0' ≤ d && d ≤ '9'))
      else none
  | [] => none

/-- Recognize a full JSON numeric literal as Python's scanner matches it:
`-? (0 | [1-9][0-9]*) (. [0-9]+)? ([eE] [+-]? [0-9]+)?`.  A dot or
exponent marker not followed by digits is simply not consumed (the
regex group fails and the match ends before it). -/
def jsonNumSkip (s : Str) : Option Str :=
  let intDone : Option Str :=
    match s with
    | '-' :: t =>
        (match t with
         | '0' :: r => some r
         | c :: _ => if '1' ≤ c && c ≤ '9' then jsonDigits t else none
         | [] => none)
    | '0' :: r => some r
    | c :: _ => if '1' ≤ c && c ≤ '9' then jsonDigits s else none
    | [] => none
  match intDone with
  | none => none
  | some r1 =>
      let r2 := match r1 with
        | '.' :: t =>
            (match jsonDigits t with
             | some q => q
             | none => r1)
        | _ => r1
      let r3 := match r2 with
        | c :: t =>
            if c = 'e' || c = 'E' then
              let t2 := match t with
                | '+' :: q => q
                | '-' :: q => q
                | _ => t
              match jsonDigits t2 with
              | some q => q
              | none => r2
            else r2
        | [] => r2
      some r3

/-- Recognize a JSON string body (after the opening quote) up to and past
the closing quote, as the source's scanner accepts it: every escape of
the table, `\uXXXX` with any four hex digits (lone surrogates included),
and no unescaped control character. -/
def jsonStrSkip : Nat → Str → Option Str
  | 0, _ => none
  | _ + 1, [] => none
  | fuel + 1, c :: rest =>
      if c = '"' then some rest
      else if c = '\\' then
        match rest with
        | [] => none
        | e :: rest2 =>
            if e = '"' || e = '\\' || e = '/' || e = 'b' || e = 'f' ||
                e = 'n' || e = 'r' || e = 't' then
              jsonStrSkip fuel rest2
            else if e = 'u' then
              match rest2 with
              | a :: b :: x :: d :: rest3 =>
                  if (hexVal a).isSome && (hexVal b).isSome &&
                      (hexVal x).isSome && (hexVal d).isSome then
                    jsonStrSkip fuel rest3
                  else none
              | _ => none
            else none
      else if c.toNat < 0x20 then none
      else jsonStrSkip fuel rest

/-- Recognize one JSON value from the front of the input — the grammar
`json.loads` accepts, including non-integer numerics and the `NaN`,
`Infinity` and `-Infinity` constants.  Returns the remainder. -/
def jsonSkip : Nat → Str → Option Str
  | 0, _ => none
  | fuel + 1, s =>
      let s := s.dropWhile jsonWs
      match s with
      | [] => none
      | c :: rest =>
          if c = '"' then jsonStrSkip s.length rest
          else if c = '[' then
            let rest1 := rest.dropWhile jsonWs
            match rest1 with
            | ']' :: r => some r
            | _ => jsonArrSkip fuel rest
          else if c = '\x7b' then
            let rest1 := rest.dropWhile jsonWs
            match rest1 with
            | '\x7d' :: r => some r
            | _ => jsonObjSkip fuel rest
          else if c = 't' then
            match s with
            | 't' :: 'r' :: 'u' :: 'e' :: r => some r
            | _ => none
          else if c = 'f' then
            match s with
            | 'f' :: 'a' :: 'l' :: 's' :: 'e' :: r => some r
            | _ => none
          else if c = 'n' then
            match s with
            | 'n' :: 'u' :: 'l' :: 'l' :: r => some r
            | _ => none
          else if c = 'N' then
            match s with
            | 'N' :: 'a' :: 'N' :: r => some r
            | _ => none
          else if c = 'I' then
            match s with
            | 'I' :: 'n' :: 'f' :: 'i' :: 'n' :: 'i' :: 't' :: 'y' :: r => some r
            | _ => none
          else if c = '-' then
            match s with
            | '-' :: 'I' :: 'n' :: 'f' :: 'i' :: 'n' :: 'i' :: 't' :: 'y' :: r =>
                some r
            | _ => jsonNumSkip s
          else jsonNumSkip s
where
  /-- Comma-separated array items (after `[`, at least one item). -/
  jsonArrSkip : Nat → Str → Option Str
    | 0, _ => none
    | fuel + 1, s =>
        match jsonSkip fuel s with
        | none => none
        | some r =>
            let r := r.dropWhile jsonWs
            match r with
            | ',' :: r2 => jsonArrSkip fuel r2
            | ']' :: r2 => some r2
            | _ => none
  /-- Comma-separated object members (after the brace, at least one). -/
  jsonObjSkip : Nat → Str → Option Str
    | 0, _ => none
    | fuel + 1, s =>
        let s := s.dropWhile jsonWs
        match s with
        | '"' :: rest =>
            match jsonStrSkip s.length rest with
            | none => none
            | some r =>
                let r := r.dropWhile jsonWs
                match r with
                | ':' :: r2 =>
                    match jsonSkip fuel r2 with
                    | none => none
                    | some r3 =>
                        let r3 := r3.dropWhile jsonWs
                        match r3 with
                        | ',' :: r4 => jsonObjSkip fuel r4
                        | '\x7d' :: r4 => some r4
                        | _ => none
                | _ => none
        | _ => none

/-- Whether `json.loads` accepts the document: one value with surrounding
whitespace and nothing else. -/
def jsonAccepts (s : Str) : Bool :=
  match jsonSkip (s.length + 1) s with
  | some r => r.dropWhile jsonWs = []
  | none => false

/-- `json.loads` as the model sees it: fail exactly when the recognizer
rejects; otherwise decode the value when it lies in the integer-numeric,
paired-surrogate fragment (outside that fragment the model yields no
value, and no theorem below depends on one). -/
def jsonLoads (s : Str) : Option Json :=
  if jsonAccepts s then
    match jsonValue (s.length + 1) s with
    | some (v, r) => if r.dropWhile jsonWs = [] then some v else none
    | none => none
  else none

/-- Python `dict.get`: the last binding of a key wins. -/
def dictGet (fields : List (Str × Json)) (k : Str) : Option Json :=
  (fields.filter (fun p => p.1 = k)).getLast?.map (fun p => p.2)

/-- Python truthiness of a JSON-decoded value. -/
def jsonTruthy : Json → Bool
  | .null => false
  | .bool b => b
  | .num n => n ≠ 0
  | .str s => s ≠ []
  | .arr xs => !xs.isEmpty
  | .obj fs => !fs.isEmpty

/-- `json.dumps` escaping of one string character (`ensure_ascii=False`). -/
def jsonEscapeChar (c : Char) : Str :=
  if c = '"' then ['\\', '"']
  else if c = '\\' then ['\\', '\\']
  else if c = '\n' then ['\\', 'n']
  else if c = '\t' then ['\\', 't']
  else if c = '\r' then ['\\', 'r']
  else if c = '\x08' then ['\\', 'b']
  else if c = '\x0c' then ['\\', 'f']
  else if c.toNat < 0x20 then
    let hx := fun (n : Nat) => if n < 10 then Char.ofNat ('0'.toNat + n)
                               else Char.ofNat ('a'.toNat + (n - 10))
    ['\\', 'u', '0', '0', hx (c.toNat / 16), hx (c.toNat % 16)]
  else [c]

/-- Lexicographic (code-point) order on strings, Python's `<` used by
`sort_keys=True`. -/
def lexLe : Str → Str → Bool
  | [], _ => true
  | _ :: _, [] => false
  | a :: s, b :: t => if a = b then lexLe s t else decide (a < b)

/-- Insertion sort by `lexLe` on association-list keys. -/
def insertByKey (p : Str × Json) : List (Str × Json) → List (Str × Json)
  | [] => [p]
  | q :: rest => if lexLe p.1 q.1 then p :: q :: rest else q :: insertByKey p rest

/-- Sort object members by key. -/
def sortByKey : List (Str × Json) → List (Str × Json)
  | [] => []
  | p :: rest => insertByKey p (sortByKey rest)

/-- Quote and escape a string as `json.dumps` does. -/
def jsonQuote (s : Str) : Str :=
  '"' :: (s.map jsonEscapeChar).flatten ++ ['"']

/-- `json.dumps(v, sort_keys=True, ensure_ascii=False)` with the default
separators, fuelled by the value's size (any fuel at least the nesting
depth yields the serialization; `jsonDumps` below always supplies enough). -/
def jsonDumpsF : Nat → Json → Str
  | 0, _ => []
  | fuel + 1, v =>
      match v with
      | .null => "null".data
      | .bool true => "true".data
      | .bool false => "false".data
      | .num n => (toString n).data
      | .str s => jsonQuote s
      | .arr [] => ['[', ']']
      | .arr (x :: xs) =>
          '[' :: jsonDumpsF fuel x ++
            (xs.map (fun y => ',' :: ' ' :: jsonDumpsF fuel y)).flatten ++ [']']
      | .obj fields =>
          match sortByKey fields with
          | [] => ['\x7b', '\x7d']
          | p :: ps =>
              let ser := fun (q : Str × Json) =>
                jsonQuote q.1 ++ ':' :: ' ' :: jsonDumpsF fuel q.2
              '\x7b' :: ser p ++
                (ps.map (fun q => ',' :: ' ' :: ser q)).flatten ++ ['\x7d']

/-- The four-field dictionary `asdict(item)` as a JSON value. -/
def asdictJson (it : RssItem) : Json :=
  let f : Option Str → Json := fun o => match o with
    | none => .null
    | some s => .str s
  .obj [("title".data, f it.title), ("link".data, f it.link),
        ("pubDate".data, f it.pubDate), ("description".data, f it.description)]

/-- `json.dumps` of the four-field `asdict` dictionary (nesting depth 2,
so fuel 2 is exact). -/
def jsonDumpsItem (it : RssItem) : Str :=
  jsonDumpsF 2 (asdictJson it)

/-- `item.title and item.title.strip()` (and likewise for the other
fields): `None` stays `None`, the empty string stays empty (short-circuit
on falsiness), otherwise the field is stripped. -/
def pyAndStrip : Option Str → Option Str
  | none => none
  | some s => if s = [] then some [] else some (pyStrip s)

/-- Keep the truthy values, as `filter(None, ...)` does. -/
def keepTruthy (l : List (Option Str)) : List Str :=
  l.filterMap (fun o => match o with
    | some s => if s = [] then none else some s
    | none => none)

/-- `_item_key` of finma.py. -/
def itemKey (it : RssItem) : Str :=
  let concat := joinWith (" | ".data)
    (keepTruthy [pyAndStrip it.title, pyAndStrip it.pubDate, pyAndStrip it.link])
  if concat = [] then "json::".data ++ jsonDumpsItem it
  else "raw::".data ++ concat

/-- The key computed for one decoded store line: mirror of the `try`
block of `_load_existing_keys` operating on the decoded JSON value.  A
non-object value, or a truthy non-string field, raises in the source
(`.get` / `.strip` attribute errors) and falls back to the raw line key. -/
def lineKeyOfJson (v : Json) (t : Str) : Str :=
  match v with
  | .obj o =>
      let fieldOf := fun (name : String) => dictGet o name.data
      let bad := fun (f : Option Json) => match f with
        | some w => jsonTruthy w && !(match w with | .str _ => true | _ => false)
        | none => false
      let tf := fieldOf "title"
      let pf := fieldOf "pubDate"
      let lf := fieldOf "link"
      if bad tf || bad pf || bad lf then "raw::".data ++ t
      else
        let strOf := fun (f : Option Json) => match f with
          | some (.str s) => if s = [] then none else some (pyStrip s)
          | _ => none
        let parts := [strOf tf, strOf pf, strOf lf].filterMap
          (fun o => match o with
            | some s => if s = [] then none else some s
            | none => none)
        let concat := joinWith (" | ".data) parts
        if concat = [] then
          let jf := fun (name : String) => (fieldOf name).getD .null
          "json::".data ++ jsonDumpsF (t.length + 2) (.obj
            [("title".data, jf "title"), ("link".data, jf "link"),
             ("pubDate".data, jf "pubDate"), ("description".data, jf "description")])
        else "raw::".data ++ concat
  | _ => "raw::".data ++ t

/-- The key recorded for one non-blank, stripped store line. -/
def lineKey (t : Str) : Str :=
  match jsonLoads t with
  | some v => lineKeyOfJson v t
  | none => "raw::".data ++ t

/-- Split text into lines at newline characters. -/
def splitOnNl : Str → List Str
  | [] => [[]]
  | c :: rest =>
      if c = '\n' then [] :: splitOnNl rest
      else match splitOnNl rest with
        | p :: ps => (c :: p) :: ps
        | [] => [[c]]

/-- `_load_existing_keys` of finma.py, over the store's text content
(order of insertion retained; only membership is consumed). -/
def loadExistingKeys (content : Str) : List Str :=
  (splitOnNl content).foldl
    (fun keys line =>
      let t := pyStrip line
      if t = [] then keys else keys ++ [lineKey t])
    []

/-- The line `write_ndjson` appends for an item:
`" | ".join(filter(None, (title, pubDate, link)))`, unstripped. -/
def lineOf (it : RssItem) : Str :=
  joinWith (" | ".data) (keepTruthy [it.title, it.pubDate, it.link])

/-- The dedup filter of `write_ndjson`: keep each item whose key is not
yet in the accumulated key set, adding kept keys immediately. -/
def toAppendList (keys : List Str) : List RssItem → List RssItem
  | [] => []
  | it :: rest =>
      let k := itemKey it
      if k ∈ keys then toAppendList keys rest
      else it :: toAppendList (keys ++ [k]) rest

/-- `write_ndjson` of finma.py: returns the resulting store content and
the count of appended records.  When nothing survives the filter the
store is untouched (an absent store is not even created). -/
def writeNdjson (items : List RssItem) (store : Option Str) : Option Str × Nat :=
  let existing := match store with
    | none => []
    | some content => loadExistingKeys content
  let toApp := toAppendList existing items
  if toApp = [] then (store, 0)
  else (some ((store.getD []) ++ (toApp.map (fun it => lineOf it ++ ['\n'])).flatten),
        toApp.length)

/-! ## Auxiliary predicates and the spec-side key definition -/

/-- No two adjacent horizontal-whitespace characters. -/
def noDoubleHT : Str → Bool
  | [] => true
  | [_] => true
  | a :: b :: rest => !(isHT a && isHT b) && noDoubleHT (b :: rest)

/-- Whether `pat` occurs as a contiguous subsequence of `s`. -/
def hasSub (pat : Str) : Str → Bool
  | [] => pat.isPrefixOf []
  | c :: rest => pat.isPrefixOf (c :: rest) || hasSub pat rest

/-- Whether a string starts with a horizontal-whitespace character. -/
def startHT : Str → Bool
  | [] => false
  | c :: _ => isHT c

/-- Identity-key derivation as the specification words it: take the
trimmed, non-empty fields among title, pubDate, link in that order;
if any remain, prefix their `" | "` join with the structural marker,
otherwise prefix the canonical serialization of the record with the
content-fallback marker. -/
def itemKeySpec (it : RssItem) : Str :=
  let fields := ([it.title, it.pubDate, it.link]).filterMap (fun o =>
    match o with
    | none => none
    | some s => if pyStrip s = [] then none else some (pyStrip s))
  if fields = [] then "json::".data ++ jsonDumpsItem it
  else "raw::".data ++ joinWith (" | ".data) fields

/-- The windower-state invariant used for the budget analysis: the
running estimate equals the buffer's summed padded estimates, stays
under `ov + 2*maxT`, the buffer holds only sentences estimated under
`maxT`, and every emitted chunk is estimated under `ov + 2*maxT`. -/
def ChunkInv (maxT ov : Nat) (st : ChunkState) : Prop :=
  st.tok = sumTok st.current ∧ st.tok ≤ ov + 2 * maxT ∧
  (∀ s ∈ st.current, estimateTokens s < maxT) ∧
  (∀ c ∈ st.chunks, estimateTokens c < ov + 2 * maxT)


/-! ## Theorems -/

/-- C2 counterexample: the spec scenario (`target_tokens=1`,
`max_tokens=100`, `overlap_tokens=0` on the three sentences) does not
produce three chunks: the windower emits four. -/
theorem C2_counterexample :
    (semanticChunksFromSentences
      ["Intro.".data, "Second sentence here.".data, "Third.".data] 1 100 0).length ≠ 3 := by
  decide

/-- C2 (amended): the scenario produces exactly four chunks; the
overlap carry seeds each flush with the previous chunk's last sentence
even at zero requested overlap, so every chunk after the first repeats
its predecessor's trailing sentence, and each input sentence still ends
exactly one chunk, in order. -/
theorem C2_theorem :
    semanticChunksFromSentences
      ["Intro.".data, "Second sentence here.".data, "Third.".data] 1 100 0 =
      ["Intro.".data, "Intro. Second sentence here.".data,
       "Second sentence here. Third.".data, "Third.".data] := by
  decide

/-- The overlap carry is a prefix of the walked (reversed) buffer. -/
theorem overlapCarry_append (ov : Nat) :
    ∀ (l : List Str) (tok : Nat), ∃ v, overlapCarry ov l tok ++ v = l := by
  intro l
  induction l with
  | nil => exact fun _ => ⟨[], rfl⟩
  | cons s rest ih =>
      intro tok
      unfold overlapCarry
      by_cases h : ov ≤ tok + estimateTokens s + 1
      · exact ⟨rest, by simp [h]⟩
      · obtain ⟨v, hv⟩ := ih (tok + estimateTokens s + 1)
        exact ⟨v, by simp [h, hv]⟩

/-- The overlap carry starts with the first walked sentence. -/
theorem overlapCarry_head (ov : Nat) (s : Str) (rest : List Str) (tok : Nat) :
    ∃ t, overlapCarry ov (s :: rest) tok = s :: t := by
  unfold overlapCarry
  by_cases h : ov ≤ tok + estimateTokens s + 1
  · exact ⟨[], by simp [h]⟩
  · exact ⟨overlapCarry ov rest (tok + estimateTokens s + 1), by simp [h]⟩

/-- With `overlap_tokens = 0` the carry is exactly the last sentence. -/
theorem overlapCarry_zero (s : Str) (rest : List Str) (tok : Nat) :
    overlapCarry 0 (s :: rest) tok = [s] := by
  simp [overlapCarry]

/-- C10: every flush of a non-empty buffer seeds the next buffer with at
least one sentence — a suffix of the flushed buffer ending in its last
sentence — and with `overlap_tokens = 0` that seed is exactly the last
sentence: the carry loop appends a sentence before comparing the
accumulated estimate with the overlap budget. -/
theorem C10_theorem (ov : Nat) (st : ChunkState) (h : st.current ≠ []) :
    (flushCurrent ov st).current ≠ [] ∧
    (flushCurrent ov st).current.getLast? = st.current.getLast? ∧
    (∃ u, u ++ (flushCurrent ov st).current = st.current) ∧
    (ov = 0 → (flushCurrent ov st).current = st.current.getLast?.toList) := by
  obtain ⟨s, rs, hrev⟩ : ∃ s rs, st.current.reverse = s :: rs := by
    rcases hr : st.current.reverse with _ | ⟨s, rs⟩
    · exact absurd (by simpa using congrArg List.reverse hr) h
    · exact ⟨s, rs, rfl⟩
  have hcur : st.current = (s :: rs).reverse := by
    simpa using congrArg List.reverse hrev
  have hlast : st.current.getLast? = some s := by
    rw [hcur]; simp
  obtain ⟨t, ht⟩ := overlapCarry_head ov s rs 0
  have hflush : (flushCurrent ov st).current =
      (overlapCarry ov (s :: rs) 0).reverse := by
    simp [flushCurrent, h, hrev]
  refine ⟨?_, ?_, ?_, ?_⟩
  · rw [hflush, ht]; simp
  · rw [hflush, ht, hlast]; simp
  · obtain ⟨v, hv⟩ := overlapCarry_append ov (s :: rs) 0
    refine ⟨v.reverse, ?_⟩
    rw [hflush, ← List.reverse_append, hv, ← hcur]
  · intro h0
    subst h0
    rw [hflush, overlapCarry_zero, hlast]
    rfl

/-- C10 witness at a concrete buffer. -/
theorem C10_witness :
    (flushCurrent 0 ⟨[], ["Hi.".data], 3⟩).current ≠ [] ∧
    (flushCurrent 0 ⟨[], ["Hi.".data], 3⟩).current.getLast? =
      (⟨[], ["Hi.".data], 3⟩ : ChunkState).current.getLast? ∧
    (∃ u, u ++ (flushCurrent 0 ⟨[], ["Hi.".data], 3⟩).current =
      (⟨[], ["Hi.".data], 3⟩ : ChunkState).current) ∧
    ((0 : Nat) = 0 → (flushCurrent 0 ⟨[], ["Hi.".data], 3⟩).current =
      (⟨[], ["Hi.".data], 3⟩ : ChunkState).current.getLast?.toList) :=
  C10_theorem 0 ⟨[], ["Hi.".data], 3⟩ (by decide)

/-- Once the word index passes the end, the subdivision loop is inert. -/
theorem oversizedGo_done (target maxT ov approx stp : Nat) (words : List Str) :
    ∀ (f i : Nat) (st : ChunkState), words.length ≤ i →
      oversizedGo target maxT ov approx stp words f i st = st := by
  intro f i st hi
  cases f with
  | zero => rfl
  | succ f' => simp [oversizedGo, Nat.not_lt.2 hi]

/-- The subdivision loop's result does not depend on the fuel once the
fuel covers the remaining words (possible because the advance step is
strictly positive). -/
theorem oversizedGo_stable (target maxT ov approx stp : Nat) (words : List Str)
    (hstp : 1 ≤ stp) :
    ∀ (f1 f2 i : Nat) (st : ChunkState),
      words.length ≤ i + f1 → words.length ≤ i + f2 →
      oversizedGo target maxT ov approx stp words f1 i st =
        oversizedGo target maxT ov approx stp words f2 i st := by
  intro f1
  induction f1 with
  | zero =>
      intro f2 i st h1 _
      rw [oversizedGo_done target maxT ov approx stp words 0 i st (by omega),
          oversizedGo_done target maxT ov approx stp words f2 i st (by omega)]
  | succ f1' ih =>
      intro f2 i st h1 h2
      cases f2 with
      | zero =>
          rw [oversizedGo_done target maxT ov approx stp words _ i st (by omega),
              oversizedGo_done target maxT ov approx stp words 0 i st (by omega)]
      | succ f2' =>
          by_cases hi : i < words.length
          · simp only [oversizedGo, if_pos hi]
            exact ih f2' (i + stp) _ (by omega) (by omega)
          · simp only [oversizedGo, if_neg hi]

/-- C7: the windower is total — the empty sentence list yields the empty
chunk list, the word-subdivision advance step is strictly positive, and
the subdivision loop stabilizes whenever the fuel covers the remaining
words, so the embedded loop computes the loop's limit. -/
theorem C7_theorem :
    (∀ target maxT ov, semanticChunksFromSentences [] target maxT ov = []) ∧
    (∀ approx ov, 1 ≤ subdivisionStep approx ov) ∧
    (∀ target maxT ov approx stp (words : List Str) (f1 f2 i : Nat) (st : ChunkState),
      1 ≤ stp → words.length ≤ i + f1 → words.length ≤ i + f2 →
      oversizedGo target maxT ov approx stp words f1 i st =
        oversizedGo target maxT ov approx stp words f2 i st) := by
  refine ⟨fun _ _ _ => rfl, fun approx ov => Nat.le_max_left 1 _, ?_⟩
  intro target maxT ov approx stp words f1 f2 i st hstp h1 h2
  exact oversizedGo_stable target maxT ov approx stp words hstp f1 f2 i st h1 h2

/-- C7 witness: concrete instances of all three parts. -/
theorem C7_witness :
    semanticChunksFromSentences [] 350 500 50 = [] ∧
    1 ≤ subdivisionStep 400 50 ∧
    oversizedGo 1 2 0 3 1 ["ab".data] 1 0 ⟨[], [], 0⟩ =
      oversizedGo 1 2 0 3 1 ["ab".data] 5 0 ⟨[], [], 0⟩ :=
  ⟨C7_theorem.1 350 500 50, C7_theorem.2.1 400 50,
   C7_theorem.2.2 1 2 0 3 1 ["ab".data] 1 5 0 ⟨[], [], 0⟩ (by decide)
     (by decide) (by decide)⟩

/-- C1 counterexample: with `max_tokens = 10 ≥ 1` and no sentence at or
above the maximum (so the word-subdivision exception is vacuous), the
windower still emits a chunk estimated at more than `max_tokens`:
the overlap carry plus one appended sentence overshoots the budget. -/
theorem C1_counterexample :
    (∀ s ∈ [List.replicate 33 'a', List.replicate 30 'b'], estimateTokens s < 10) ∧
    ∃ c ∈ semanticChunksFromSentences
      [List.replicate 33 'a', List.replicate 30 'b'] 1 10 1000,
      10 < estimateTokens c := by
  decide

/-- `max 1 q` characterized for linear arithmetic. -/
theorem max1_spec (q : Nat) : (q = 0 ∧ Nat.max 1 q = 1) ∨ (1 ≤ q ∧ Nat.max 1 q = q) := by
  cases q with
  | zero => exact .inl ⟨rfl, rfl⟩
  | succ n =>
      exact .inr ⟨Nat.succ_le_succ (Nat.zero_le n),
        Nat.max_eq_right (Nat.succ_le_succ (Nat.zero_le n))⟩

/-- Token estimates grow with length. -/
theorem estimateTokens_mono {a b : Str} (h : a.length ≤ b.length) :
    estimateTokens a ≤ estimateTokens b := by
  unfold estimateTokens
  exact max_le_max (Nat.le_refl 1)
    (Nat.div_le_div_right (Nat.add_le_add_right h 3))

/-- Subadditivity of the estimate across a single-space join. -/
theorem estimateTokens_append_cons (x j : Str) :
    estimateTokens (x ++ ' ' :: j) ≤ estimateTokens x + estimateTokens j + 1 := by
  unfold estimateTokens
  have hlen : (x ++ ' ' :: j).length = x.length + j.length + 1 := by
    simp [List.length_append]
    omega
  rw [hlen]
  have hdiv : (x.length + j.length + 1 + 3) / 4 ≤
      (x.length + 3) / 4 + (j.length + 3) / 4 + 1 := by omega
  rcases max1_spec ((x.length + j.length + 1 + 3) / 4) with ⟨h1, e1⟩ | ⟨h1, e1⟩ <;>
    rcases max1_spec ((x.length + 3) / 4) with ⟨h2, e2⟩ | ⟨h2, e2⟩ <;>
      rcases max1_spec ((j.length + 3) / 4) with ⟨h3, e3⟩ | ⟨h3, e3⟩ <;>
        rw [e1, e2, e3] <;> omega

/-- Stripping does not lengthen a string. -/
theorem pyStrip_length_le (s : Str) : (pyStrip s).length ≤ s.length := by
  unfold pyStrip
  calc ((s.dropWhile pySpace).reverse.dropWhile pySpace).reverse.length
      = ((s.dropWhile pySpace).reverse.dropWhile pySpace).length := by
        rw [List.length_reverse]
    _ ≤ (s.dropWhile pySpace).reverse.length :=
        ((List.dropWhile_suffix pySpace).sublist).length_le
    _ = (s.dropWhile pySpace).length := by rw [List.length_reverse]
    _ ≤ s.length := ((List.dropWhile_suffix pySpace).sublist).length_le

theorem sumTok_cons (s : Str) (l : List Str) :
    sumTok (s :: l) = estimateTokens s + 1 + sumTok l := by
  simp [sumTok]

theorem sumTok_append (l1 l2 : List Str) :
    sumTok (l1 ++ l2) = sumTok l1 + sumTok l2 := by
  simp [sumTok]

theorem sumTok_reverse (l : List Str) : sumTok l.reverse = sumTok l := by
  unfold sumTok
  rw [List.map_reverse, List.sum_reverse]

/-- A joined, stripped buffer is estimated strictly below the buffer's
summed padded estimates. -/
theorem estimateTokens_joinStrip (l : List Str) (h : l ≠ []) :
    estimateTokens (pyStrip (joinWith [' '] l)) + 1 ≤ sumTok l := by
  have key : ∀ (m : List Str), m ≠ [] →
      estimateTokens (joinWith [' '] m) + 1 ≤ sumTok m := by
    intro m
    induction m with
    | nil => intro hm; exact absurd rfl hm
    | cons x rest ih =>
        intro _
        cases rest with
        | nil =>
            simp [joinWith, sumTok_cons, sumTok]
        | cons y t =>
            have hj : joinWith [' '] (x :: y :: t) =
                x ++ ' ' :: joinWith [' '] (y :: t) := by
              simp [joinWith]
            have ihr := ih (by simp)
            have happ := estimateTokens_append_cons x (joinWith [' '] (y :: t))
            rw [hj, sumTok_cons]
            omega
  calc estimateTokens (pyStrip (joinWith [' '] l)) + 1
      ≤ estimateTokens (joinWith [' '] l) + 1 := by
        have := estimateTokens_mono (pyStrip_length_le (joinWith [' '] l))
        omega
    _ ≤ sumTok l := key l h

/-- The carry's summed padded estimates stay within one overshoot of the
overlap budget, when every sentence is estimated below `maxT`. -/
theorem overlapCarry_sum (maxT ov : Nat) :
    ∀ (l : List Str) (tok : Nat), (∀ s ∈ l, estimateTokens s + 1 ≤ maxT) →
      tok ≤ ov → tok + sumTok (overlapCarry ov l tok) ≤ ov + maxT := by
  intro l
  induction l with
  | nil => intro tok _ htok; simp [overlapCarry, sumTok]; omega
  | cons s rest ih =>
      intro tok hel htok
      unfold overlapCarry
      by_cases h : ov ≤ tok + estimateTokens s + 1
      · have hse := hel s (by simp)
        simp only [if_pos h, sumTok_cons]
        simp [sumTok]
        omega
      · have hr := ih (tok + estimateTokens s + 1)
          (fun x hx => hel x (by simp [hx])) (by omega)
        simp only [if_neg h, sumTok_cons]
        omega

/-- Carried sentences come from the walked buffer. -/
theorem overlapCarry_mem (ov : Nat) (l : List Str) (tok : Nat) :
    ∀ x ∈ overlapCarry ov l tok, x ∈ l := by
  intro x hx
  obtain ⟨v, hv⟩ := overlapCarry_append ov l tok
  rw [← hv]
  exact List.mem_append_left v hx

/-- Flushing preserves the windower invariant and leaves the new buffer
within one sentence of the overlap budget. -/
theorem flushCurrent_inv (maxT ov : Nat) (st : ChunkState)
    (h : ChunkInv maxT ov st) :
    ChunkInv maxT ov (flushCurrent ov st) ∧ (flushCurrent ov st).tok ≤ ov + maxT := by
  obtain ⟨htok, hbound, helem, hchunks⟩ := h
  by_cases hc : st.current = []
  · have hfl : flushCurrent ov st = st := by simp [flushCurrent, hc]
    rw [hfl]
    have : st.tok = 0 := by rw [htok, hc]; rfl
    exact ⟨⟨htok, hbound, helem, hchunks⟩, by omega⟩
  · have hfl : flushCurrent ov st =
        { chunks := st.chunks ++ [pyStrip (joinWith [' '] st.current)],
          current := (overlapCarry ov st.current.reverse 0).reverse,
          tok := sumTok ((overlapCarry ov st.current.reverse 0).reverse) } := by
      simp [flushCurrent, hc]
    have hcarrysum : sumTok ((overlapCarry ov st.current.reverse 0).reverse) ≤ ov + maxT := by
      rw [sumTok_reverse]
      have := overlapCarry_sum maxT ov st.current.reverse 0
        (fun s hs => by
          have := helem s (by simpa using hs)
          omega)
        (Nat.zero_le ov)
      omega
    have hcarrymem : ∀ x ∈ (overlapCarry ov st.current.reverse 0).reverse,
        x ∈ st.current := by
      intro x hx
      have := overlapCarry_mem ov st.current.reverse 0 x (by simpa using hx)
      simpa using this
    have hnew : estimateTokens (pyStrip (joinWith [' '] st.current)) < ov + 2 * maxT := by
      have := estimateTokens_joinStrip st.current hc
      rw [← htok] at this
      omega
    rw [hfl]
    refine ⟨⟨rfl, by dsimp only; omega, fun s hs => helem s (hcarrymem s hs), ?_⟩,
      by dsimp only; omega⟩
    intro c hcm
    rcases List.mem_append.1 hcm with hcm | hcm
    · exact hchunks c hcm
    · simp at hcm
      rw [hcm]
      exact hnew

/-- One windower step preserves the invariant when the sentence is
estimated below `maxT` (so the subdivision branch is not taken). -/
theorem stepSentence_inv (target maxT ov : Nat) (hmax : 1 ≤ maxT)
    (st : ChunkState) (s : Str) (hs : estimateTokens s < maxT)
    (h : ChunkInv maxT ov st) :
    ChunkInv maxT ov (stepSentence target maxT ov st s) := by
  obtain ⟨htok, hbound, helem, hchunks⟩ := h
  unfold stepSentence
  rw [if_neg (by omega : ¬ maxT ≤ estimateTokens s)]
  by_cases h2 : st.tok + estimateTokens s ≤ maxT
  · rw [if_pos h2]
    have hinv1 : ChunkInv maxT ov
        { st with current := st.current ++ [s], tok := st.tok + estimateTokens s + 1 } := by
      refine ⟨?_, by dsimp only; omega, ?_, hchunks⟩
      · simp [sumTok_append, sumTok_cons, sumTok, htok]
        omega
      · intro x hx
        rcases List.mem_append.1 hx with hx | hx
        · exact helem x hx
        · simp at hx; rw [hx]; exact hs
    dsimp only
    split
    · exact (flushCurrent_inv maxT ov _ hinv1).1
    · exact hinv1
  · rw [if_neg h2]
    obtain ⟨hinv1, htok1⟩ := flushCurrent_inv maxT ov st ⟨htok, hbound, helem, hchunks⟩
    rw [if_neg (by omega : ¬ maxT < estimateTokens s)]
    obtain ⟨htok1', _, helem1, hchunks1⟩ := hinv1
    have hinv2 : ChunkInv maxT ov
        { flushCurrent ov st with
            current := (flushCurrent ov st).current ++ [s],
            tok := (flushCurrent ov st).tok + estimateTokens s + 1 } := by
      refine ⟨?_, by dsimp only; omega, ?_, hchunks1⟩
      · simp [sumTok_append, sumTok_cons, sumTok, htok1']
        omega
      · intro x hx
        rcases List.mem_append.1 hx with hx | hx
        · exact helem1 x hx
        · simp at hx; rw [hx]; exact hs
    dsimp only
    split
    · exact (flushCurrent_inv maxT ov _ hinv2).1
    · exact hinv2

/-- The invariant survives the whole sentence fold. -/
theorem foldl_stepSentence_inv (target maxT ov : Nat) (hmax : 1 ≤ maxT) :
    ∀ (sents : List Str) (st : ChunkState),
      (∀ s ∈ sents, estimateTokens s < maxT) → ChunkInv maxT ov st →
      ChunkInv maxT ov (sents.foldl (stepSentence target maxT ov) st) := by
  intro sents
  induction sents with
  | nil => intro st _ h; exact h
  | cons s rest ih =>
      intro st hall h
      exact ih _ (fun x hx => hall x (by simp [hx]))
        (stepSentence_inv target maxT ov hmax st s (hall s (by simp)) h)

/-- C1 (amended): for `max_tokens ≥ 1` and inputs all of whose sentences
are estimated strictly below `max_tokens` (so the word-subdivision
exception never fires), every emitted chunk is estimated strictly below
`overlap_tokens + 2*max_tokens`.  The stated `≤ max_tokens` budget fails
(see the counterexample): after a flush the carried overlap plus one
appended sentence can overshoot it. -/
theorem C1_theorem (sents : List Str) (target maxT ov : Nat) (hmax : 1 ≤ maxT)
    (hs : ∀ s ∈ sents, estimateTokens s < maxT) :
    ∀ c ∈ semanticChunksFromSentences sents target maxT ov,
      estimateTokens c < ov + 2 * maxT := by
  unfold semanticChunksFromSentences
  have hinv := foldl_stepSentence_inv target maxT ov hmax sents
    { chunks := [], current := [], tok := 0 } hs
    ⟨rfl, by dsimp only; omega, by simp, by simp⟩
  obtain ⟨htok, hbound, helem, hchunks⟩ := hinv
  intro c hc
  rcases List.mem_append.1 hc with hc | hc
  · exact hchunks c hc
  · rcases hfin : (sents.foldl (stepSentence target maxT ov)
        { chunks := [], current := [], tok := 0 }).current with _ | ⟨x, xs⟩
    · rw [hfin] at hc; simp at hc
    · rw [hfin] at hc
      simp only [if_neg (by simp : ¬ (x :: xs : List Str) = [])] at hc
      simp at hc
      have hJ := estimateTokens_joinStrip (x :: xs) (by simp)
      have hb2 : sumTok (x :: xs) ≤ ov + 2 * maxT := by
        rw [← hfin, ← htok]; exact hbound
      rw [hc]
      omega

/-- C1 witness at a concrete configuration. -/
theorem C1_witness :
    (1 ≤ 500 ∧ ∀ s ∈ ["Hi.".data], estimateTokens s < 500) ∧
    ∀ c ∈ semanticChunksFromSentences ["Hi.".data] 350 500 50,
      estimateTokens c < 50 + 2 * 500 :=
  ⟨⟨by decide, by decide⟩,
   C1_theorem ["Hi.".data] 350 500 50 (by decide) (by decide)⟩

/-- The element-level agreement between the source's truthiness chain
(`x and x.strip()` filtered by `filter(None, ...)`) and the spec's
"trimmed non-empty fields". -/
theorem keyPart_eq (o : Option Str) :
    ((match pyAndStrip o with
      | some s => if s = [] then none else some s
      | none => none) : Option Str) =
    ((match o with
      | none => none
      | some s => if pyStrip s = [] then none else some (pyStrip s)) : Option Str) := by
  cases o with
  | none => rfl
  | some s =>
      by_cases hs : s = []
      · subst hs; rfl
      · simp only [pyAndStrip, if_neg hs]

/-- A `" | "` join of non-empty parts is empty only for no parts. -/
theorem joinWith_eq_nil_iff (sep : Str) (parts : List Str)
    (h : ∀ x ∈ parts, x ≠ []) : joinWith sep parts = [] ↔ parts = [] := by
  cases parts with
  | nil => simp [joinWith]
  | cons p ps =>
      cases ps with
      | nil =>
          simp only [joinWith]
          exact ⟨fun hp => absurd hp (h p (by simp)), fun hp => by simp at hp⟩
      | cons q t =>
          simp only [joinWith]
          constructor
          · intro hp
            rcases List.append_eq_nil.1 (List.append_eq_nil.1 hp).1 with ⟨hp1, _⟩
            exact absurd hp1 (h p (by simp))
          · intro hp; simp at hp

/-- C4: the source's identity-key derivation coincides with the
specification's description: trimmed non-empty structural fields joined
by `" | "` under the structural prefix, and otherwise the canonical
sorted serialization of the full record under the fallback prefix — so
every item receives a key. -/
theorem C4_theorem (it : RssItem) : itemKey it = itemKeySpec it := by
  unfold itemKey itemKeySpec keepTruthy
  have hmap : [pyAndStrip it.title, pyAndStrip it.pubDate, pyAndStrip it.link] =
      [it.title, it.pubDate, it.link].map pyAndStrip := rfl
  rw [hmap, List.filterMap_map]
  have heq : List.filterMap
      ((fun o => match o with
        | some s => if s = [] then none else some s
        | none => none) ∘ pyAndStrip) [it.title, it.pubDate, it.link] =
      List.filterMap (fun o => match o with
        | none => none
        | some s => if pyStrip s = [] then none else some (pyStrip s))
        [it.title, it.pubDate, it.link] := by
    apply List.filterMap_congr
    intro o _
    exact keyPart_eq o
  rw [heq]
  set fields := List.filterMap (fun o => match o with
    | none => none
    | some s => if pyStrip s = [] then none else some (pyStrip s))
    [it.title, it.pubDate, it.link] with hfields
  have hne : ∀ x ∈ fields, x ≠ [] := by
    intro x hx
    rcases List.mem_filterMap.1 hx with ⟨a, _, hfa⟩
    cases a with
    | none => simp at hfa
    | some s =>
        by_cases hps : pyStrip s = []
        · simp [hps] at hfa
        · simp only [if_neg hps] at hfa
          simp at hfa
          rw [← hfa]; exact hps
  by_cases hf : fields = []
  · rw [hf]
    simp [joinWith]
  · have hjoin : joinWith (" | ".data) fields ≠ [] := by
      intro hc
      exact hf ((joinWith_eq_nil_iff (" | ".data) fields hne).1 hc)
    rw [if_neg hjoin, if_neg hf]

/-- C8 counterexample: a whitespace-only store line cannot be parsed as
JSON, yet it is skipped outright — no fallback key is recorded for it,
so the loaded key set is empty. -/
theorem C8_counterexample : loadExistingKeys " \n".data = [] := by decide

/-- The key fold only ever appends. -/
theorem loadKeys_fold_mono (lines : List Str) :
    ∀ (init : List Str) (x : Str), x ∈ init →
      x ∈ lines.foldl
        (fun keys line =>
          let t := pyStrip line
          if t = [] then keys else keys ++ [lineKey t]) init := by
  induction lines with
  | nil => intro init x hx; exact hx
  | cons l rest ih =>
      intro init x hx
      simp only [List.foldl_cons]
      by_cases ht : pyStrip l = []
      · simpa [ht] using ih init x hx
      · exact ih _ x (by simp [ht, hx])

/-- The model decoder fails on every document the recognizer rejects, so
a `jsonAccepts _ = false` hypothesis drives the loader into the same
fallback branch the source takes when `json.loads` raises. -/
theorem jsonLoads_none_of_reject {s : Str} (h : jsonAccepts s = false) :
    jsonLoads s = none := by
  simp [jsonLoads, h]

/-- C8 (amended): every store line that is non-blank after stripping and
that `json.loads` rejects (the full grammar: numbers with fraction and
exponent parts, `NaN`/`Infinity`, lone-surrogate escapes) contributes the
raw-line fallback key `raw:: <stripped line>` to the loaded key set
(blank lines, by contrast, are skipped outright — see the
counterexample). -/
theorem C8_theorem (content line : Str) (hmem : line ∈ splitOnNl content)
    (hne : pyStrip line ≠ []) (hjson : jsonAccepts (pyStrip line) = false) :
    ("raw::".data ++ pyStrip line) ∈ loadExistingKeys content := by
  have hkey : lineKey (pyStrip line) = "raw::".data ++ pyStrip line := by
    unfold lineKey
    rw [jsonLoads_none_of_reject hjson]
  unfold loadExistingKeys
  rw [← hkey]
  have main : ∀ (lines : List Str) (init : List Str), line ∈ lines →
      lineKey (pyStrip line) ∈ lines.foldl
        (fun keys l =>
          let t := pyStrip l
          if t = [] then keys else keys ++ [lineKey t]) init := by
    intro lines
    induction lines with
    | nil => intro init h; simp at h
    | cons l rest ih =>
        intro init h
        rcases List.mem_cons.1 h with h | h
        · subst h
          simp only [List.foldl_cons, if_neg hne]
          exact loadKeys_fold_mono rest _ _ (by simp)
        · simp only [List.foldl_cons]
          by_cases ht : pyStrip l = []
          · simpa [ht] using ih init h
          · simp only [if_neg ht]
            exact ih _ h
  exact main (splitOnNl content) [] hmem

/-- C8 witness at a concrete store. -/
theorem C8_witness :
    (" x".data ∈ splitOnNl " x\n".data ∧ pyStrip " x".data ≠ [] ∧
      jsonAccepts (pyStrip " x".data) = false) ∧
    ("raw::".data ++ pyStrip " x".data) ∈ loadExistingKeys " x\n".data :=
  ⟨⟨by decide, by decide, by decide⟩,
   C8_theorem " x\n".data " x".data (by decide) (by decide) (by decide)⟩

/-- Text splitting at newlines never yields the empty part list. -/
theorem splitOnNl_ne_nil (s : Str) : splitOnNl s ≠ [] := by
  cases s with
  | nil => simp [splitOnNl]
  | cons c rest =>
      by_cases h : c = '\n'
      · simp [splitOnNl, h]
      · simp only [splitOnNl, if_neg h]
        rcases hs : splitOnNl rest with _ | ⟨p, ps⟩
        · simp
        · simp

/-- Splitting distributes over an embedded newline. -/
theorem splitOnNl_append_nl (u b : Str) :
    splitOnNl (u ++ '\n' :: b) = splitOnNl u ++ splitOnNl b := by
  induction u with
  | nil => simp [splitOnNl]
  | cons c u' ih =>
      by_cases h : c = '\n'
      · subst h
        simp [splitOnNl, ih]
      · rcases hs : splitOnNl u' with _ | ⟨p, ps⟩
        · exact absurd hs (splitOnNl_ne_nil u')
        · simp only [List.cons_append, splitOnNl, if_neg h, List.append_eq]
          rw [ih, hs]
          simp

/-- A newline-free string is a single part. -/
theorem splitOnNl_no_nl (L : Str) (h : '\n' ∉ L) : splitOnNl L = [L] := by
  induction L with
  | nil => rfl
  | cons c rest ih =>
      have hc : ¬ c = '\n' := fun hcc => h (by simp [hcc])
      simp only [splitOnNl, if_neg hc, ih (fun hm => h (by simp [hm]))]

/-- Splitting the concatenation of newline-terminated, newline-free
records recovers the records (plus the trailing empty part). -/
theorem splitOnNl_flatten (ls : List Str) (h : ∀ L ∈ ls, '\n' ∉ L) :
    splitOnNl ((ls.map (fun L => L ++ ['\n'])).flatten) = ls ++ [[]] := by
  induction ls with
  | nil => rfl
  | cons L rest ih =>
      have hL : (((L :: rest).map (fun L => L ++ ['\n'])).flatten : Str) =
          L ++ '\n' :: ((rest.map (fun L => L ++ ['\n'])).flatten) := by
        simp
      rw [hL, splitOnNl_append_nl, splitOnNl_no_nl L (h L (by simp)),
        ih (fun x hx => h x (by simp [hx]))]
      simp

/-- A string ending in a newline decomposes around it. -/
theorem eq_dropLast_append_nl {l : Str} (h : l.getLast? = some '\n') :
    l = l.dropLast ++ ['\n'] := by
  have hne : l ≠ [] := by intro hx; rw [hx] at h; simp at h
  have h1 := List.dropLast_append_getLast hne
  have h2 : l.getLast hne = '\n' := by
    have h3 := List.getLast?_eq_getLast l hne
    rw [h3] at h
    exact Option.some.inj h
  conv_lhs => rw [← h1, h2]

/-- Splitting a newline-terminated string, followed by more text. -/
theorem splitOnNl_ends_nl_append (l b : Str) (h : l.getLast? = some '\n') :
    splitOnNl (l ++ b) = splitOnNl l.dropLast ++ splitOnNl b := by
  conv_lhs => rw [eq_dropLast_append_nl h]
  rw [List.append_assoc]
  exact splitOnNl_append_nl _ b

/-- A newline-terminated string splits into its head lines plus an
empty trailing part. -/
theorem splitOnNl_ends_nl (l : Str) (h : l.getLast? = some '\n') :
    splitOnNl l = splitOnNl l.dropLast ++ [[]] := by
  have := splitOnNl_ends_nl_append l [] h
  simpa using this

/-- The dedup filter keeps a subsequence of the input, in order. -/
theorem toAppendList_sublist : ∀ (items : List RssItem) (keys : List Str),
    (toAppendList keys items).Sublist items := by
  intro items
  induction items with
  | nil => intro keys; simp [toAppendList]
  | cons it rest ih =>
      intro keys
      unfold toAppendList
      by_cases h : itemKey it ∈ keys
      · simp only [if_pos h]
        exact (ih keys).cons it
      · simp only [if_neg h]
        exact (ih (keys ++ [itemKey it])).cons₂ it

/-- C9 counterexample: appending to a store whose content does not end
in a newline, with a record containing an embedded newline, merges the
old last line with the new record and spreads the record over two lines
— the prior line `X` is no longer among the store's lines. -/
theorem C9_counterexample :
    writeNdjson [⟨some "a\nb".data, none, none, none⟩] (some "X".data) =
      (some "Xa\nb\n".data, 1) ∧
    splitOnNl "Xa\nb\n".data = ["Xa".data, "b".data, []] ∧
    "X".data ∉ splitOnNl "Xa\nb\n".data := by
  decide

/-- C9 (amended): `write_ndjson` only ever extends the store: the new
content is exactly the old content followed by the surviving records (a
subsequence of the input, in input order), one per newline-terminated
write, and the returned count is the number appended — zero leaves the
store, even an absent one, untouched.  At line level the old lines
survive unchanged provided the old content is empty or
newline-terminated and the appended records contain no embedded newline
(the counterexample violates both and corrupts the line structure). -/
theorem C9_theorem (items : List RssItem) (store : Option Str) :
    (writeNdjson items store).2 =
      (toAppendList (store.elim [] loadExistingKeys) items).length ∧
    (toAppendList (store.elim [] loadExistingKeys) items).Sublist items ∧
    (toAppendList (store.elim [] loadExistingKeys) items = [] →
      (writeNdjson items store).1 = store) ∧
    (toAppendList (store.elim [] loadExistingKeys) items ≠ [] →
      (writeNdjson items store).1 = some ((store.getD []) ++
        ((toAppendList (store.elim [] loadExistingKeys) items).map
          (fun it => lineOf it ++ ['\n'])).flatten)) ∧
    ((store.getD [] = [] ∨ (store.getD []).getLast? = some '\n') →
     (∀ it ∈ toAppendList (store.elim [] loadExistingKeys) items,
        '\n' ∉ lineOf it) →
     splitOnNl ((writeNdjson items store).1.getD []) =
       (splitOnNl (store.getD [])).dropLast ++
         (toAppendList (store.elim [] loadExistingKeys) items).map lineOf
         ++ [[]]) := by
  have hkeys : (store.elim [] loadExistingKeys : List Str) =
      (match store with
        | none => []
        | some content => loadExistingKeys content) := by
    cases store <;> rfl
  set kept := toAppendList (store.elim [] loadExistingKeys) items with hkept
  have hwrite : writeNdjson items store =
      if kept = [] then (store, 0)
      else (some ((store.getD []) ++
        (kept.map (fun it => lineOf it ++ ['\n'])).flatten), kept.length) := by
    rw [hkept, hkeys]
    rfl
  have hsplitBase :
      (store.getD [] = [] ∨ (store.getD []).getLast? = some '\n') →
      splitOnNl (store.getD []) = (splitOnNl (store.getD [])).dropLast ++ [[]] := by
    rintro (h | h)
    · rw [h]; rfl
    · rw [splitOnNl_ends_nl _ h, List.dropLast_concat]
  by_cases hk : kept = []
  · rw [hwrite, if_pos hk]
    refine ⟨by simp [hk], ?_, fun _ => rfl, fun hc => absurd hk hc, ?_⟩
    · rw [hkept]; exact toAppendList_sublist items _
    · intro hbase _
      rw [hk]
      simpa using hsplitBase hbase
  · rw [hwrite, if_neg hk]
    refine ⟨rfl, ?_, fun hc => absurd hc hk, fun _ => rfl, ?_⟩
    · rw [hkept]; exact toAppendList_sublist items _
    · intro hbase hnl
      have hflat : splitOnNl ((kept.map (fun it => lineOf it ++ ['\n'])).flatten) =
          kept.map lineOf ++ [[]] := by
        have h1 := splitOnNl_flatten (kept.map lineOf)
          (fun L hL => by
            rcases List.mem_map.1 hL with ⟨it, hit, hLit⟩
            rw [← hLit]
            exact hnl it hit)
        rw [List.map_map] at h1
        exact h1
      dsimp only [Option.getD_some]
      rcases hbase with h | h
      · rw [h, List.nil_append, hflat]
        simp [splitOnNl]
      · rw [splitOnNl_ends_nl_append _ _ h, hflat,
          splitOnNl_ends_nl _ h, List.dropLast_concat]
        simp

/-- C9 witness: a fresh store receiving one item. -/
theorem C9_witness :
    ((((none : Option Str).getD [] = [] ∨
        ((none : Option Str).getD []).getLast? = some '\n') ∧
      (∀ it ∈ toAppendList ((none : Option Str).elim [] loadExistingKeys)
        [⟨some "A".data, none, some "D".data, none⟩], '\n' ∉ lineOf it)) ∧
     splitOnNl ((writeNdjson [⟨some "A".data, none, some "D".data, none⟩]
        none).1.getD []) =
       (splitOnNl ((none : Option Str).getD [])).dropLast ++
         (toAppendList ((none : Option Str).elim [] loadExistingKeys)
           [⟨some "A".data, none, some "D".data, none⟩]).map lineOf ++ [[]]) :=
  ⟨⟨Or.inl rfl, by decide⟩,
   (C9_theorem [⟨some "A".data, none, some "D".data, none⟩] none).2.2.2.2
     (Or.inl rfl) (by decide)⟩

/-- A string whose ends are not whitespace is strip-stable. -/
theorem pyStrip_eq_self {s : Str}
    (h1 : ∀ c, s.head? = some c → pySpace c = false)
    (h2 : ∀ c, s.getLast? = some c → pySpace c = false) :
    pyStrip s = s := by
  unfold pyStrip
  have d1 : s.dropWhile pySpace = s := by
    rcases s with _ | ⟨a, t⟩
    · rfl
    · rw [List.dropWhile_cons, if_neg (by simp [h1 a rfl])]
  rw [d1]
  have d2 : s.reverse.dropWhile pySpace = s.reverse := by
    rcases hr : s.reverse with _ | ⟨a, t⟩
    · rfl
    · have ha : s.getLast? = some a := by
        rw [← List.head?_reverse, hr]
        rfl
      rw [List.dropWhile_cons, if_neg (by simp [h2 a ha])]
  rw [d2, List.reverse_reverse]

/-- C5 counterexample: a section-header word already followed by a
period-and-space still gets a period-and-space inserted — the
substitution is unconditional, so the boundary marker is doubled and an
empty-ish sentence `Abstract. .` results. -/
theorem C5_counterexample :
    headerHint "Abstract. Foo".data ≠ "Abstract. Foo".data ∧
    headerHint "Abstract. Foo".data = "Abstract. . Foo".data ∧
    splitIntoSentences "Abstract. Foo".data =
      ["Abstract. .".data, "Foo".data] := by
  refine ⟨?_, by decide, by decide⟩
  decide

/-- The scanner's result is fuel-independent once the fuel covers the
remaining text (every step consumes at least one character). -/
theorem substHeaderAux_stable (w : Str) (hw : w ≠ []) :
    ∀ (f1 f2 : Nat) (b : Bool) (s : Str), s.length ≤ f1 → s.length ≤ f2 →
      substHeaderAux w f1 b s = substHeaderAux w f2 b s := by
  intro f1
  induction f1 with
  | zero =>
      intro f2 b s h1 _
      have hs : s = [] := List.length_eq_zero.1 (Nat.le_zero.1 h1)
      subst hs
      cases f2 <;> rfl
  | succ f1' ih =>
      intro f2 b s h1 h2
      cases f2 with
      | zero =>
          have hs : s = [] := List.length_eq_zero.1 (Nat.le_zero.1 h2)
          subst hs
          rfl
      | succ f2' =>
          cases s with
          | nil => rfl
          | cons c rest =>
              simp only [substHeaderAux]
              split
              · have hlen : ((c :: rest).drop
                    (w.length + trailLen ((c :: rest).drop w.length))).length ≤ f1' ∧
                    ((c :: rest).drop
                    (w.length + trailLen ((c :: rest).drop w.length))).length ≤ f2' := by
                  rw [List.length_drop]
                  have hwl : 1 ≤ w.length := by
                    cases w with
                    | nil => exact absurd rfl hw
                    | cons a t => simp
                  simp only [List.length_cons] at h1 h2 ⊢
                  omega
                rw [ih f2' _ _ hlen.1 hlen.2]
              · have hrl : rest.length ≤ f1' ∧ rest.length ≤ f2' := by
                  simp at h1 h2
                  omega
                rw [ih f2' _ _ hrl.1 hrl.2]

/-- A list is a Boolean prefix of itself extended. -/
theorem isPrefixOf_append_self (w t : Str) : w.isPrefixOf (w ++ t) = true := by
  induction w with
  | nil => simp [List.isPrefixOf]
  | cons a as ih => simp [List.isPrefixOf, ih]

/-- Every vocabulary word is a non-empty, purely alphabetic word. -/
theorem sectionWords_alpha :
    ∀ w ∈ sectionWords, w ≠ [] ∧ w.all Char.isAlpha = true := by
  decide

/-- C5 (amended): the boundary forcing is unconditional.  For every
vocabulary word `w`, a text `w. v` in which the scanner finds nothing
further to rewrite becomes `w. . v`: the pass replaces the matched
word (whose `\s*:?\s*` trail is empty here, the next character being a
period) by `w. ` even though a period-and-space is already present,
duplicating the boundary. -/
theorem C5_theorem (w : Str) (hw : w ∈ sectionWords) (v : Str)
    (hv : substHeaderAux w v.length false v = v) :
    substHeader w (w ++ '.' :: ' ' :: v) = w ++ '.' :: ' ' :: '.' :: ' ' :: v := by
  obtain ⟨hne, halpha⟩ := sectionWords_alpha w hw
  obtain ⟨a, wt, hwa⟩ : ∃ a wt, w = a :: wt := by
    cases w with
    | nil => exact absurd rfl hne
    | cons a wt => exact ⟨a, wt, rfl⟩
  have ha : a.isAlpha = true := by
    rw [hwa] at halpha
    simp [List.all_cons] at halpha
    exact halpha.1
  have haspace : (a == ' ') = false := by
    cases heq : a == ' '
    · rfl
    · exfalso
      have hae := eq_of_beq heq
      rw [hae] at ha
      exact absurd ha (by decide)
  have hwdot : isWordChar '.' = false := by decide
  have hwsp : isWordChar ' ' = false := by decide
  have step3 : substHeaderAux w (v.length + 1) false (' ' :: v) = ' ' :: v := by
    have hpreB : w.isPrefixOf (' ' :: v) = false := by
      rw [hwa]
      show (a == ' ' && List.isPrefixOf wt v) = false
      rw [haspace]
      rfl
    simp only [substHeaderAux]
    split
    · next htrue =>
        rw [hpreB] at htrue
        simp at htrue
    · rw [hwsp, hv]
  have hpre : ¬ (w <+: ' ' :: v) := by
    rw [hwa]
    intro hp
    rw [List.cons_prefix_cons] at hp
    rw [hp.1] at ha
    exact absurd ha (by decide)
  have step2 : substHeaderAux w (v.length + 1 + 1) true ('.' :: ' ' :: v) =
      '.' :: ' ' :: v := by
    simp only [substHeaderAux]
    simp [hwdot, hwsp, hpre, hv]
  have htrail : trailLen ('.' :: ' ' :: v) = 0 := by
    have h1 : runLen pySpace ('.' :: ' ' :: v) = 0 := by
      simp [runLen, show pySpace '.' = false from by decide]
    simp [trailLen, h1]
  have hfuel : (w ++ '.' :: ' ' :: v).length = (wt ++ '.' :: ' ' :: v).length + 1 := by
    rw [hwa]
    simp
  have hL : (w ++ '.' :: ' ' :: v : Str) = a :: (wt ++ '.' :: ' ' :: v) := by
    rw [hwa]
    rfl
  have hdrop : List.drop w.length (a :: (wt ++ '.' :: ' ' :: v)) =
      '.' :: ' ' :: v := by
    rw [← hL]
    exact List.drop_left w ('.' :: ' ' :: v)
  have hcondB : (!false && w.isPrefixOf (a :: (wt ++ '.' :: ' ' :: v)) &&
      (match List.drop w.length (a :: (wt ++ '.' :: ' ' :: v)) with
        | [] => true
        | d :: _ => !isWordChar d)) = true := by
    rw [← hL, isPrefixOf_append_self, List.drop_left]
    simp [hwdot]
  unfold substHeader
  rw [hfuel, hL]
  simp only [substHeaderAux]
  split
  · rw [hdrop, htrail, Nat.add_zero, hdrop]
    show w ++ ['.', ' '] ++ substHeaderAux w ((wt ++ '.' :: ' ' :: v).length) true
      ('.' :: ' ' :: v) = w ++ '.' :: ' ' :: '.' :: ' ' :: v
    have hfuel2 : (wt ++ '.' :: ' ' :: v).length = v.length + 1 + 1 + wt.length := by
      simp
      omega
    rw [hfuel2]
    rw [substHeaderAux_stable w hne (v.length + 1 + 1 + wt.length)
      (v.length + 1 + 1) true ('.' :: ' ' :: v)
      (by simp only [List.length_cons]; omega)
      (by simp only [List.length_cons]; omega)]
    rw [step2]
    simp
  · next hfalse =>
      exact absurd hcondB hfalse

theorem C5_witness :
    "Abstract".data ∈ sectionWords ∧
    substHeaderAux "Abstract".data "Foo".data.length false "Foo".data = "Foo".data ∧
    substHeader "Abstract".data ("Abstract".data ++ '.' :: ' ' :: "Foo".data) =
      "Abstract".data ++ '.' :: ' ' :: '.' :: ' ' :: "Foo".data :=
  ⟨by decide, by decide,
   C5_theorem "Abstract".data (by decide) "Foo".data (by decide)⟩

/-! ## Matcher evaluation lemmas for the whitespace-normalisation analysis -/

/-- `tryDown` succeeds immediately when the greediest count succeeds. -/
theorem tryDown_top (f : Nat → Option Nat) (lo : Nat) :
    ∀ (k r : Nat), f (lo + k) = some r → tryDown f lo k = some r := by
  intro k r h
  cases k with
  | zero => simpa [tryDown] using h
  | succ j =>
      simp only [tryDown]
      rw [show lo + j + 1 = lo + (j + 1) from rfl, h]

/-- A single mandatory-unbounded class matches exactly the maximal run. -/
theorem seqMatch_run (p : Char → Bool) (s : Str) (h : 1 ≤ runLen p s) :
    seqMatch [⟨p, 1, none⟩] s = some (runLen p s) := by
  simp only [seqMatch]
  rw [if_neg (by omega)]
  cases hr : runLen p s with
  | zero => omega
  | succ j =>
      rw [show j + 1 - 1 = j from rfl]
      rw [tryDown_top (fun n => Option.map (fun m => n + m) (some 0)) 1 j (1 + j) rfl]
      rw [show 1 + j = j + 1 from by omega]

/-- A single optional-unbounded class matches the (possibly empty) run. -/
theorem seqMatch_star (p : Char → Bool) (s : Str) :
    seqMatch [⟨p, 0, none⟩] s = some (runLen p s) := by
  simp only [seqMatch]
  rw [if_neg (by omega)]
  cases hr : runLen p s with
  | zero => simp [tryDown, seqMatch]
  | succ j =>
      rw [show j + 1 - 0 = j + 1 from rfl]
      rw [tryDown_top (fun n => Option.map (fun m => n + m) (some 0)) 0 (j + 1) (0 + (j + 1)) rfl]
      rw [show 0 + (j + 1) = j + 1 from by omega]

/-- An optional-unbounded class with an empty run at the head defers to
the rest of the pattern. -/
theorem seqMatch_star_skip (p : Char → Bool) (pats : List PItem) (s : Str)
    (h : runLen p s = 0) :
    seqMatch (⟨p, 0, none⟩ :: pats) s =
      (seqMatch pats s).map (fun m => 0 + m) := by
  simp only [seqMatch]
  rw [if_neg (by omega), h]
  simp [tryDown]

/-- A literal item at a matching head consumes exactly one character. -/
theorem seqMatch_lit_cons (c : Char) (pats : List PItem) (t : Str) :
    seqMatch (litP c :: pats) (c :: t) =
      (seqMatch pats t).map (fun m => 1 + m) := by
  simp only [seqMatch, litP]
  have hrl : runLen (fun x => decide (x = c)) (c :: t) =
      runLen (fun x => decide (x = c)) t + 1 := by
    simp [runLen]
  rw [hrl, if_neg (by omega)]
  simp [tryDown]

/-- A literal item at a mismatching head fails. -/
theorem seqMatch_lit_ne (c d : Char) (pats : List PItem) (t : Str)
    (h : d ≠ c) :
    seqMatch (litP c :: pats) (d :: t) = none := by
  simp only [seqMatch, litP]
  have hrl : runLen (fun x => decide (x = c)) (d :: t) = 0 := by
    simp [runLen, h]
  rw [hrl, if_pos (by omega)]

/-- A literal item fails on the empty string. -/
theorem seqMatch_lit_nil (c : Char) (pats : List PItem) :
    seqMatch (litP c :: pats) [] = none := by
  simp only [seqMatch, litP]
  rw [show runLen (fun x => decide (x = c)) [] = 0 from rfl, if_pos (by omega)]

/-- After the maximal `p`-run, the next character (if any) fails `p`. -/
theorem runLen_drop_head (p : Char → Bool) :
    ∀ (s : Str) (d : Char), (s.drop (runLen p s)).head? = some d →
      p d = false := by
  intro s
  induction s with
  | nil => intro d h; simp at h
  | cons a t ih =>
      intro d h
      cases hpa : p a with
      | true =>
          rw [show runLen p (a :: t) = runLen p t + 1 from by simp [runLen, hpa],
            List.drop_succ_cons] at h
          exact ih d h
      | false =>
          rw [show runLen p (a :: t) = 0 from by simp [runLen, hpa],
            List.drop_zero] at h
          simp at h
          rw [← h]
          exact hpa

/-- Characters of a substitution output that are not produced by the
replacement function come from the input. -/
theorem reSub_mem_of (pat : List PItem) (repl : Str → Str) (c0 : Char)
    (hrepl : ∀ m, c0 ∈ repl m → c0 ∈ m) :
    ∀ (fuel : Nat) (s : Str), c0 ∈ reSub pat repl fuel s → c0 ∈ s := by
  intro fuel
  induction fuel with
  | zero => intro s h; exact h
  | succ fuel ih =>
      intro s h
      cases s with
      | nil => simp [reSub] at h
      | cons c rest =>
          cases hm : seqMatch pat (c :: rest) with
          | none =>
              rw [reSub, hm] at h
              rcases List.mem_cons.mp h with h1 | h2
              · exact h1 ▸ List.mem_cons_self c rest
              · exact List.mem_cons_of_mem c (ih rest h2)
          | some n =>
              cases n with
              | zero =>
                  rw [reSub, hm] at h
                  rcases List.mem_cons.mp h with h1 | h2
                  · exact h1 ▸ List.mem_cons_self c rest
                  · exact List.mem_cons_of_mem c (ih rest h2)
              | succ k =>
                  rw [reSub, hm] at h
                  rcases List.mem_append.mp h with h1 | h2
                  · exact List.take_subset (k + 1) (c :: rest) (hrepl _ h1)
                  · exact List.drop_subset (k + 1) (c :: rest) (ih _ h2)

/-- A character that always heads a nonempty match and never appears in a
replacement is absent from the substitution output. -/
theorem reSub_not_mem (pat : List PItem) (repl : Str → Str) (c0 : Char)
    (hrepl : ∀ m, c0 ∉ repl m)
    (hmatch : ∀ rest : Str, ∃ k, seqMatch pat (c0 :: rest) = some (k + 1)) :
    ∀ (fuel : Nat) (s : Str), s.length ≤ fuel → c0 ∉ reSub pat repl fuel s := by
  intro fuel
  induction fuel with
  | zero =>
      intro s hs
      cases s with
      | nil => simp [reSub]
      | cons c rest => simp at hs
  | succ fuel ih =>
      intro s hs
      cases s with
      | nil => simp [reSub]
      | cons c rest =>
          simp only [List.length_cons] at hs
          cases hm : seqMatch pat (c :: rest) with
          | none =>
              rw [reSub, hm]
              intro h
              rcases List.mem_cons.mp h with h1 | h2
              · obtain ⟨k, hk⟩ := hmatch rest
                rw [← h1] at hm
                rw [hm] at hk
                exact absurd hk (by simp)
              · exact ih rest (by omega) h2
          | some n =>
              cases n with
              | zero =>
                  rw [reSub, hm]
                  intro h
                  rcases List.mem_cons.mp h with h1 | h2
                  · obtain ⟨k, hk⟩ := hmatch rest
                    rw [← h1] at hm
                    rw [hm] at hk
                    exact absurd hk (by simp)
                  · exact ih rest (by omega) h2
              | succ k =>
                  rw [reSub, hm]
                  intro h
                  rcases List.mem_append.mp h with h1 | h2
                  · exact hrepl _ h1
                  · refine ih _ ?_ h2
                    have := List.length_drop (k + 1) (c :: rest)
                    simp only [List.length_cons] at this
                    omega

/-- The newline-surgery pattern `[ \t]*\n[ \t]*` matches at every newline. -/
theorem nlPat_head (rest : Str) :
    ∃ k, seqMatch nlPat ('\n' :: rest) = some (k + 1) := by
  have h0 : runLen isHT ('\n' :: rest) = 0 := by
    simp [runLen, isHT]
  rw [show nlPat = ⟨isHT, 0, none⟩ :: [litP '\n', ⟨isHT, 0, none⟩] from rfl]
  rw [seqMatch_star_skip isHT [litP '\n', ⟨isHT, 0, none⟩] ('\n' :: rest) h0]
  rw [seqMatch_lit_cons '\n' [⟨isHT, 0, none⟩] rest]
  rw [seqMatch_star isHT rest]
  refine ⟨runLen isHT rest, ?_⟩
  show some (0 + (1 + runLen isHT rest)) = some (runLen isHT rest + 1)
  exact congrArg some (by omega)

/-- The horizontal-run pattern `[ \t]+` matches at every `[ \t]` character. -/
theorem htPat_head (c : Char) (hc : isHT c = true) (rest : Str) :
    ∃ k, seqMatch [⟨isHT, 1, none⟩] (c :: rest) = some (k + 1) := by
  have hr : runLen isHT (c :: rest) = runLen isHT rest + 1 := by
    simp [runLen, hc]
  refine ⟨runLen isHT rest, ?_⟩
  rw [seqMatch_run isHT (c :: rest) (by omega), hr]

/-- A sequence of literal items matches exactly the prefix test. -/
theorem seqMatch_lits (old : Str) :
    ∀ s : Str, seqMatch (old.map litP) s =
      if old.isPrefixOf s then some old.length else none := by
  induction old with
  | nil =>
      intro s
      simp [seqMatch, List.isPrefixOf]
  | cons c cs ih =>
      intro s
      cases s with
      | nil =>
          rw [List.map_cons, seqMatch_lit_nil c (cs.map litP)]
          simp [List.isPrefixOf]
      | cons d t =>
          by_cases hdc : d = c
          · subst hdc
            rw [List.map_cons, seqMatch_lit_cons d (cs.map litP) t, ih t]
            cases hpt : List.isPrefixOf cs t with
            | true =>
                simp only [List.isPrefixOf, beq_self_eq_true, Bool.true_and,
                  hpt, if_true, Option.map_some]
                exact congrArg some (by simp; omega)
            | false =>
                simp [List.isPrefixOf, hpt]
          · rw [List.map_cons, seqMatch_lit_ne c d (cs.map litP) t hdc]
            have hbeq : (c == d) = false :=
              beq_eq_false_iff_ne.mpr (Ne.symm hdc)
            simp [List.isPrefixOf, hbeq]

/-- When a literal pattern has no occurrence, substitution is the
identity. -/
theorem reSub_id (old : Str) (repl : Str → Str) :
    ∀ (fuel : Nat) (s : Str), hasSub old s = false →
      reSub (old.map litP) repl fuel s = s := by
  intro fuel
  induction fuel with
  | zero => intro s _; rfl
  | succ fuel ih =>
      intro s h
      cases s with
      | nil => rfl
      | cons c rest =>
          rw [hasSub, Bool.or_eq_false_iff] at h
          have hm : seqMatch (old.map litP) (c :: rest) = none := by
            rw [seqMatch_lits, h.1]
            rfl
          rw [reSub, hm, ih rest h.2]

/-- `str.replace` is the identity when the needle does not occur. -/
theorem pyReplace_id (old new s : Str) (h : hasSub old s = false) :
    pyReplace old new s = s :=
  reSub_id old (fun _ => new) s.length s h

/-- `noDoubleHT` through a cons, expressed with `startHT`. -/
theorem noDoubleHT_cons (a : Char) (l : Str) :
    noDoubleHT (a :: l) = (!(isHT a && startHT l) && noDoubleHT l) := by
  cases l with
  | nil => simp [noDoubleHT, startHT]
  | cons b t => rfl

/-- `noDoubleHT` restricted to a tail. -/
theorem noDoubleHT_tail (a : Char) (t : Str)
    (h : noDoubleHT (a :: t) = true) : noDoubleHT t = true := by
  rw [noDoubleHT_cons, Bool.and_eq_true] at h
  exact h.2

/-- `noDoubleHT` restricted to a left factor. -/
theorem noDoubleHT_append_left (r : Str) :
    ∀ m : Str, noDoubleHT (m ++ r) = true → noDoubleHT m = true := by
  intro m
  induction m with
  | nil => intro _; rfl
  | cons a m ih =>
      intro h
      rw [List.cons_append, noDoubleHT_cons, Bool.and_eq_true] at h
      rw [noDoubleHT_cons, Bool.and_eq_true]
      refine ⟨?_, ih h.2⟩
      cases m with
      | nil => simp [startHT]
      | cons b t =>
          rw [List.cons_append] at h
          exact h.1

/-- `noDoubleHT` restricted to a right factor. -/
theorem noDoubleHT_append_right (m : Str) :
    ∀ l : Str, noDoubleHT (l ++ m) = true → noDoubleHT m = true := by
  intro l
  induction l with
  | nil => intro h; exact h
  | cons a l ih =>
      intro h
      rw [List.cons_append] at h
      exact ih (noDoubleHT_tail a (l ++ m) h)

/-- `noDoubleHT` passes to contiguous substrings. -/
theorem noDoubleHT_contig {m s : Str} (hinf : m <:+: s)
    (h : noDoubleHT s = true) : noDoubleHT m = true := by
  obtain ⟨pre, post, hps⟩ := hinf
  rw [← hps, List.append_assoc] at h
  exact noDoubleHT_append_left post m (noDoubleHT_append_right (m ++ post) pre h)

/-- `pyStrip` yields a contiguous substring. -/
theorem pyStrip_contig (s : Str) : pyStrip s <:+: s := by
  have h1 : List.dropWhile pySpace s <:+ s := List.dropWhile_suffix pySpace
  have h2 : List.dropWhile pySpace (List.dropWhile pySpace s).reverse <:+
      (List.dropWhile pySpace s).reverse := List.dropWhile_suffix pySpace
  have h3 : (List.dropWhile pySpace (List.dropWhile pySpace s).reverse).reverse <+:
      List.dropWhile pySpace s := by
    apply List.reverse_suffix.mp
    rw [List.reverse_reverse]
    exact h2
  exact (h3.isInfix).trans h1.isInfix

/-- Membership in a stripped string implies membership in the original. -/
theorem pyStrip_mem {c : Char} {s : Str} (h : c ∈ pyStrip s) : c ∈ s :=
  (pyStrip_contig s).subset h

/-- The head that survives `dropWhile` fails the predicate. -/
theorem dropWhile_head_not (p : Char → Bool) :
    ∀ (s : Str) (c : Char), (s.dropWhile p).head? = some c → p c = false := by
  intro s
  induction s with
  | nil => intro c h; simp at h
  | cons a t ih =>
      intro c h
      cases hpa : p a with
      | true =>
          rw [List.dropWhile_cons_of_pos hpa] at h
          exact ih c h
      | false =>
          rw [List.dropWhile_cons_of_neg (by simp [hpa])] at h
          simp at h
          rw [← h]
          exact hpa

/-- The first character of a stripped string is not whitespace. -/
theorem pyStrip_head (s : Str) :
    ∀ c, (pyStrip s).head? = some c → pySpace c = false := by
  intro c h
  unfold pyStrip at h
  rw [List.head?_reverse] at h
  set w := List.dropWhile pySpace (List.dropWhile pySpace s).reverse with hw
  have hsuf : w <:+ (List.dropWhile pySpace s).reverse := by
    rw [hw]; exact List.dropWhile_suffix pySpace
  obtain ⟨pre, hpre⟩ := hsuf
  cases hwc : w with
  | nil => rw [hwc] at h; simp at h
  | cons b t =>
      have hne : w ≠ [] := by rw [hwc]; simp
      have hlast : (List.dropWhile pySpace s).reverse.getLast? = w.getLast? := by
        rw [← hpre]
        exact List.getLast?_append_of_ne_nil pre hne
      rw [← hlast, List.getLast?_reverse] at h
      exact dropWhile_head_not pySpace s c h

/-- The last character of a stripped string is not whitespace. -/
theorem pyStrip_last (s : Str) :
    ∀ c, (pyStrip s).getLast? = some c → pySpace c = false := by
  intro c h
  unfold pyStrip at h
  rw [List.getLast?_reverse] at h
  exact dropWhile_head_not pySpace (List.dropWhile pySpace s).reverse c h

/-- Stripping is idempotent. -/
theorem pyStrip_idem (s : Str) : pyStrip (pyStrip s) = pyStrip s :=
  pyStrip_eq_self (pyStrip_head s) (pyStrip_last s)

/-- Collapsing horizontal runs yields no adjacent horizontal whitespace,
and can only produce a horizontally-starting string from one. -/
theorem collapse_noDouble :
    ∀ (fuel : Nat) (s : Str), s.length ≤ fuel →
      noDoubleHT (reSub [⟨isHT, 1, none⟩] (fun _ => [' ']) fuel s) = true ∧
      (startHT (reSub [⟨isHT, 1, none⟩] (fun _ => [' ']) fuel s) = true →
        startHT s = true) := by
  intro fuel
  induction fuel with
  | zero =>
      intro s hs
      cases s with
      | nil => exact ⟨rfl, fun h => h⟩
      | cons c rest => simp at hs
  | succ fuel ih =>
      intro s hs
      cases s with
      | nil => exact ⟨rfl, fun h => h⟩
      | cons c rest =>
          simp only [List.length_cons] at hs
          cases hc : isHT c with
          | false =>
              have hm : seqMatch [⟨isHT, 1, none⟩] (c :: rest) = none := by
                have h0 : runLen isHT (c :: rest) = 0 := by simp [runLen, hc]
                simp [seqMatch, h0]
              rw [reSub, hm]
              obtain ⟨ih1, _⟩ := ih rest (by omega)
              constructor
              · rw [noDoubleHT_cons, hc]
                simp [ih1]
              · intro h
                rw [startHT, hc] at h
                exact absurd h (by simp)
          | true =>
              have hr : runLen isHT (c :: rest) = runLen isHT rest + 1 := by
                simp [runLen, hc]
              have hm : seqMatch [⟨isHT, 1, none⟩] (c :: rest) =
                  some (runLen isHT rest + 1) := by
                rw [seqMatch_run isHT (c :: rest) (by omega), hr]
              rw [reSub, hm]
              show noDoubleHT (' ' :: reSub [⟨isHT, 1, none⟩] (fun _ => [' '])
                    fuel (List.drop (runLen isHT rest + 1) (c :: rest))) = true ∧
                  (startHT (' ' :: reSub [⟨isHT, 1, none⟩] (fun _ => [' '])
                    fuel (List.drop (runLen isHT rest + 1) (c :: rest))) = true →
                   startHT (c :: rest) = true)
              have hd : List.drop (runLen isHT rest + 1) (c :: rest) =
                  rest.drop (runLen isHT rest) := List.drop_succ_cons
              rw [hd]
              obtain ⟨ih1, ih2⟩ := ih (rest.drop (runLen isHT rest)) (by
                have := List.length_drop (runLen isHT rest) rest
                omega)
              have hnostart : startHT (reSub [⟨isHT, 1, none⟩] (fun _ => [' '])
                  fuel (rest.drop (runLen isHT rest))) = false := by
                cases hso : startHT (reSub [⟨isHT, 1, none⟩] (fun _ => [' '])
                    fuel (rest.drop (runLen isHT rest))) with
                | false => rfl
                | true =>
                    have h2 := ih2 hso
                    cases hdr : rest.drop (runLen isHT rest) with
                    | nil => rw [hdr] at h2; exact absurd h2 (by simp [startHT])
                    | cons d t =>
                        rw [hdr] at h2
                        rw [startHT] at h2
                        have := runLen_drop_head isHT rest d (by rw [hdr]; rfl)
                        rw [this] at h2
                        exact absurd h2 (by simp)
              constructor
              · show noDoubleHT (' ' :: reSub [⟨isHT, 1, none⟩] (fun _ => [' '])
                  fuel (rest.drop (runLen isHT rest))) = true
                rw [noDoubleHT_cons, hnostart]
                simp [ih1]
              · intro _
                rw [startHT, hc]

/-- The normalisation pipeline before the final collapse, unfolded. -/
theorem cleanStage_eq (text : Str) :
    cleanStage text =
      reSubAll domainPat collapseSpaces
        (reSubAll barePat collapseSpaces
          (reSubAll doiPat collapseSpaces
            (reSubAll httpPat collapseSpaces
              (reSubAll nlPat (fun _ => [' '])
                (pyReplace ['\n', '\n'] ['<', 'P', '>']
                  (reSubAll hyphenNlPat (fun _ => [])
                    (pyReplace ['‍'] []
                      (pyReplace ['‌'] []
                        (pyReplace ['​'] []
                          (pyReplace ['\xad'] []
                            (pyReplace ['\r'] ['\n']
                              (pyReplace ['\r', '\n'] ['\n'] text)))))))))))) :=
  rfl

/-- After the newline surgery, no stage of the pipeline reintroduces a
newline: the URL/DOI repairs only delete characters of their match. -/
theorem cleanStage_no_nl (text : Str) : '\n' ∉ cleanStage text := by
  have hkill : ∀ u : Str, '\n' ∉ reSubAll nlPat (fun _ => [' ']) u := by
    intro u
    exact reSub_not_mem nlPat (fun _ => [' ']) '\n'
      (fun m => by show ('\n' : Char) ∉ [' ']; decide)
      nlPat_head u.length u le_rfl
  have hcoll : ∀ (pat : List PItem) (u : Str), '\n' ∉ u →
      '\n' ∉ reSubAll pat collapseSpaces u := by
    intro pat u hu h
    exact hu (reSub_mem_of pat collapseSpaces '\n'
      (fun m hm => (List.mem_filter.mp hm).1) u.length u h)
  rw [cleanStage_eq]
  apply hcoll
  apply hcoll
  apply hcoll
  apply hcoll
  exact hkill _

/-- C6 (corrected): the normalisation output never contains a newline or a
tab, but the paragraph marker is turned back into a space only after the
horizontal-whitespace collapse and the trim, so at marker positions double
spaces and leading or trailing whitespace survive (see the counterexample).
Whenever no `<P>` marker remains in the collapsed, trimmed stage, the
claimed shape does hold: the output equals that stage, carries no two
adjacent horizontal-whitespace characters, and equals its own strip. -/
theorem C6_theorem (text : Str) :
    ('\n' ∉ cleanExtractedText text ∧ '\t' ∉ cleanExtractedText text) ∧
    (hasSub "<P>".data (cleanCollapsed text) = false →
      cleanExtractedText text = cleanCollapsed text ∧
      noDoubleHT (cleanExtractedText text) = true ∧
      pyStrip (cleanExtractedText text) = cleanExtractedText text) := by
  have hnl_stage : '\n' ∉ cleanStage text := cleanStage_no_nl text
  have hnl_col : '\n' ∉ reSubAll [⟨isHT, 1, none⟩] (fun _ => [' '])
      (cleanStage text) := by
    intro h
    exact hnl_stage (reSub_mem_of [⟨isHT, 1, none⟩] (fun _ => [' ']) '\n'
      (fun m hm => absurd hm (by show ('\n' : Char) ∉ [' ']; decide))
      (cleanStage text).length (cleanStage text) h)
  have hht_col : '\t' ∉ reSubAll [⟨isHT, 1, none⟩] (fun _ => [' '])
      (cleanStage text) :=
    reSub_not_mem [⟨isHT, 1, none⟩] (fun _ => [' ']) '\t'
      (fun m => by show ('\t' : Char) ∉ [' ']; decide)
      (fun rest => htPat_head '\t' (by decide) rest)
      (cleanStage text).length (cleanStage text) le_rfl
  have hcc_eq : cleanCollapsed text =
      pyStrip (reSubAll [⟨isHT, 1, none⟩] (fun _ => [' ']) (cleanStage text)) :=
    rfl
  have hnl_cc : '\n' ∉ cleanCollapsed text := by
    rw [hcc_eq]
    exact fun h => hnl_col (pyStrip_mem h)
  have hht_cc : '\t' ∉ cleanCollapsed text := by
    rw [hcc_eq]
    exact fun h => hht_col (pyStrip_mem h)
  have hce_eq : cleanExtractedText text =
      pyReplace ['<', 'P', '>'] [' '] (cleanCollapsed text) := rfl
  have hnl_out : '\n' ∉ cleanExtractedText text := by
    rw [hce_eq]
    intro h
    exact hnl_cc (reSub_mem_of (['<', 'P', '>'].map litP) (fun _ => [' ']) '\n'
      (fun m hm => absurd hm (by show ('\n' : Char) ∉ [' ']; decide))
      (cleanCollapsed text).length (cleanCollapsed text) h)
  have hht_out : '\t' ∉ cleanExtractedText text := by
    rw [hce_eq]
    intro h
    exact hht_cc (reSub_mem_of (['<', 'P', '>'].map litP) (fun _ => [' ']) '\t'
      (fun m hm => absurd hm (by show ('\t' : Char) ∉ [' ']; decide))
      (cleanCollapsed text).length (cleanCollapsed text) h)
  refine ⟨⟨hnl_out, hht_out⟩, ?_⟩
  intro hp
  have hp' : hasSub ['<', 'P', '>'] (cleanCollapsed text) = false := hp
  have heq : cleanExtractedText text = cleanCollapsed text := by
    rw [hce_eq]
    exact pyReplace_id ['<', 'P', '>'] [' '] (cleanCollapsed text) hp'
  have hnd : noDoubleHT (cleanCollapsed text) = true := by
    rw [hcc_eq]
    exact noDoubleHT_contig (pyStrip_contig _)
      (collapse_noDouble (cleanStage text).length (cleanStage text) le_rfl).1
  have hstrip : pyStrip (cleanCollapsed text) = cleanCollapsed text := by
    rw [hcc_eq]
    exact pyStrip_idem _
  refine ⟨heq, ?_, ?_⟩
  · rw [heq]
    exact hnd
  · rw [heq, hstrip]

theorem C6_witness :
    ('\n' ∉ cleanExtractedText "a\tb \n c".data ∧
     '\t' ∉ cleanExtractedText "a\tb \n c".data) ∧
    hasSub "<P>".data (cleanCollapsed "a\tb \n c".data) = false ∧
    (cleanExtractedText "a\tb \n c".data = cleanCollapsed "a\tb \n c".data ∧
     noDoubleHT (cleanExtractedText "a\tb \n c".data) = true ∧
     pyStrip (cleanExtractedText "a\tb \n c".data) =
       cleanExtractedText "a\tb \n c".data) := by
  have h := C6_theorem "a\tb \n c".data
  exact ⟨h.1, by decide, h.2 (by decide)⟩

/-- C6 counterexample: a space adjacent to a paragraph break yields two
consecutive spaces in the output, and a leading paragraph break yields a
leading space; the output is not trimmed and not fully collapsed at the
positions where the `<P>` marker was converted back to a space. -/
theorem C6_counterexample :
    cleanExtractedText "a \n\nb".data = "a  b".data ∧
    noDoubleHT (cleanExtractedText "a \n\nb".data) = false ∧
    cleanExtractedText "\n\nx".data = " x".data ∧
    pyStrip (cleanExtractedText "\n\nx".data) ≠
      cleanExtractedText "\n\nx".data := by
  refine ⟨by decide, by decide, by decide, by decide⟩
